import Mathlib

/-!
Verification development for the czytget download server.

This file shallowly embeds the Python sources under `src/czytget/`:
the server's job registry and its message handlers (`server.py`), the
worker pool and its free/busy discipline, the frame serialiser
(`czcommunicator.py`), the protocol layer (`protocol.py`), and the
persistence helpers (`_dumpFile` / `_loadFile`).  Python sets are
modelled as duplicate-free lists, Python dicts as association lists in
insertion order, machine values as `Int` / `Nat`, byte strings as
`List Nat`, and fallible code returns `Except`.
-/

namespace Czytget

/-- YT codes are opaque strings (`ytCode` fields in the source). -/
abbrev Code := String

/-- Client identifiers.  On the wire they are Python ints; `BaseMsg`
initialises `clientID` to `-1`, so the type must include negatives. -/
abbrev ClientId := Int

/-- `Job = collections.namedtuple("Job", "clientID ytCode")` from
`msg/server.py`. -/
structure Job where
  clientID : ClientId
  ytCode : Code
deriving DecidableEq, Repr

/-- An element of the Python set `Server._queuedJobs`.  The set is
created holding `Job` values, but `processMsgRetry` executes
`self._queuedJobs.update(self._failedJobs)`, which iterates the dict
and therefore inserts its keys - plain ints - into the set.  A Python
set is heterogeneous, so the model's element type is the sum of the
two kinds of value that actually reach it. -/
inductive QElem
  | intElem (cid : ClientId)
  | jobElem (j : Job)
deriving DecidableEq, Repr

/-- `set.add` on a duplicate-free list model of a Python set. -/
def pySetAdd {α : Type} [DecidableEq α] (x : α) (s : List α) : List α :=
  if x ∈ s then s else s ++ [x]

/-- `set.remove`: raises `KeyError` when the element is absent. -/
def pySetRemove {α : Type} [DecidableEq α] (x : α) (s : List α) :
    Except Unit (List α) :=
  if x ∈ s then Except.ok (s.erase x) else Except.error ()

/-- A Python dict mapping client ids to sets of codes
(`_failedJobs`, `_runningJobs`, `_finishedJobs` in `server.py`),
modelled as an association list in insertion order with unique keys. -/
abbrev PyDict := List (ClientId × List Code)

/-- `d[k]`, returning `none` where Python would raise `KeyError`
(first entry with the key; keys are unique anyway). -/
def dictGet : PyDict → ClientId → Option (List Code)
  | [], _ => none
  | p :: ps, k => if p.1 = k then some p.2 else dictGet ps k

/-- `k in d` for the dict model. -/
def dictContains (d : PyDict) (k : ClientId) : Bool :=
  (dictGet d k).isSome

/-- `d[k] = v`: update in place when the key exists, else append. -/
def dictSet : PyDict → ClientId → List Code → PyDict
  | [], k, v => [(k, v)]
  | p :: ps, k, v => if p.1 = k then (k, v) :: ps else p :: dictSet ps k v

/-- `list(d)` / iteration over a dict yields its keys in insertion
order. -/
def dictKeys (d : PyDict) : List ClientId :=
  d.map (fun p => p.1)

/-- Membership of a job in one of the dict-of-sets collections:
`job.ytCode in d[job.clientID]` with an absent key counting as
non-membership. -/
def jobInDict (d : PyDict) (j : Job) : Prop :=
  match dictGet d j.clientID with
  | some s => j.ytCode ∈ s
  | none => False

instance (d : PyDict) (j : Job) : Decidable (jobInDict d j) := by
  unfold jobInDict
  cases dictGet d j.clientID with
  | none => exact inferInstanceAs (Decidable False)
  | some s => exact inferInstanceAs (Decidable (j.ytCode ∈ s))

/-- The dict-of-sets insertion idiom from `server.py`:
`if k not in d: d[k] = set()` followed by `d[k].add(code)`. -/
def dictAddCode (d : PyDict) (k : ClientId) (code : Code) : PyDict :=
  let d1 := if dictContains d k then d else dictSet d k []
  match dictGet d1 k with
  | some s => dictSet d1 k (pySetAdd code s)
  | none => d1

/-! ## Persistence (`_dumpFile` / `_loadFile`)

`_dumpFile` pickles the passed collection as-is; `_loadFile`
unpickles and then insists `type(data) == set`, raising `ServerError`
otherwise.  The pickled value is therefore either a set (of queued
elements) or a dict (the three per-client collections). -/

/-- A pickled value as written by `_dumpFile`. -/
inductive PyVal
  | vset (s : List QElem)
  | vdict (d : PyDict)
deriving DecidableEq, Repr

/-- `type(data) == set` check from `_loadFile`. -/
def PyVal.isSet : PyVal → Bool
  | .vset _ => true
  | .vdict _ => false

/-- `ServerError` raised by `_loadFile` on a non-set payload. -/
inductive ServerErr
  | corruptedDataFile
deriving DecidableEq, Repr

/-- `_loadFile`: a missing file yields the empty set; an existing file
is unpickled and returned only when the payload is a `set`, otherwise
`ServerError("corrupted data file ...")` is raised.  The file content
is `none` when the file does not exist. -/
def loadFile (content : Option PyVal) : Except ServerErr PyVal :=
  match content with
  | none => Except.ok (PyVal.vset [])
  | some data =>
      if data.isSet then Except.ok data
      else Except.error ServerErr.corruptedDataFile

/-- The four per-session files (`queued.pkl`, `processing.pkl`,
`finished.pkl`, `failed.pkl`); `none` models a file not yet written. -/
structure SessionFiles where
  queuedFile : Option PyVal
  processingFile : Option PyVal
  finishedFile : Option PyVal
  failedFile : Option PyVal
deriving DecidableEq, Repr

/-! ## Server state and handlers (`server.py`) -/

/-- The server's job registry: `_queuedJobs` is a Python set,
`_failedJobs` / `_runningJobs` / `_finishedJobs` are dicts mapping
client ids to sets of codes.  The session files are carried along so
that the `_dump*` calls of each handler are part of the model. -/
structure ServerState where
  queuedJobs : List QElem
  failedJobs : PyDict
  runningJobs : PyDict
  finishedJobs : PyDict
  files : SessionFiles
deriving DecidableEq, Repr

/-- The state right after `Server.__init__`. -/
def initServerState : ServerState :=
  { queuedJobs := []
    failedJobs := []
    runningJobs := []
    finishedJobs := []
    files := ⟨none, none, none, none⟩ }

/-- `_dumpQueued`. -/
def dumpQueued (st : ServerState) : ServerState :=
  { st with files := { st.files with queuedFile := some (PyVal.vset st.queuedJobs) } }

/-- `_dumpProcessing`. -/
def dumpProcessing (st : ServerState) : ServerState :=
  { st with files := { st.files with processingFile := some (PyVal.vdict st.runningJobs) } }

/-- `_dumpFinished`. -/
def dumpFinished (st : ServerState) : ServerState :=
  { st with files := { st.files with finishedFile := some (PyVal.vdict st.finishedJobs) } }

/-- `_dumpFailed`. -/
def dumpFailed (st : ServerState) : ServerState :=
  { st with files := { st.files with failedFile := some (PyVal.vdict st.failedJobs) } }

/-- `_dumpAll`. -/
def dumpAll (st : ServerState) : ServerState :=
  dumpFailed (dumpFinished (dumpProcessing (dumpQueued st)))

/-- `MsgResponse(queryID, text)` sent back to a client. -/
structure MsgResponse where
  queryID : Nat
  text : String
deriving DecidableEq, Repr

/-- A reply together with the client id passed to
`self._connector.send(response, message.clientID)`. -/
structure Reply where
  response : MsgResponse
  target : ClientId
deriving DecidableEq, Repr

/-- `MsgAddCode` from `msg/client.py`: `clientID` (set to `-1` by
`BaseMsg.__init__` and never overwritten), `queryID`, `ytCode`. -/
structure MsgAddCode where
  clientID : ClientId
  queryID : Nat
  ytCode : Code
deriving DecidableEq, Repr

/-- Messages processed by the server thread (its mailbox alphabet).
`ack` carries the worker's download outcome. -/
inductive SrvMsg
  | addCode (m : MsgAddCode)
  | retry
  | discard
  | allocate
  | ack (job : Job) (success : Bool)
deriving DecidableEq, Repr

/-- The single-quote character, used by the response texts in
`processMsgAddCode`. -/
def sq : String := String.singleton (Char.ofNat 39)

/-- Reply text for a code already in `_runningJobs`. -/
def textAlreadyBeingProcessed (code : Code) : String :=
  "YT code " ++ sq ++ code ++ sq ++ " already being processed"

/-- Reply text for a code already in `_finishedJobs`. -/
def textAlreadyProcessed (code : Code) : String :=
  "YT code " ++ sq ++ code ++ sq ++ " already processed"

/-- Reply text for a newly queued code. -/
def textQueued (code : Code) : String :=
  "YT code " ++ sq ++ code ++ sq ++ " queued"

/-- Result of a server handler: the new state, the replies sent
through the connector, and the messages the server sent to itself. -/
structure HandlerResult where
  state : ServerState
  replies : List Reply
  selfMsgs : List SrvMsg
deriving Repr

/-- `Server.processMsgAddCode`: reply "already being processed" when
the code is in the sender's running set, "already processed" when in
its finished set; otherwise build a `Job`, reply "queued", add the job
to `_queuedJobs`, dump the queued file and self-send `MsgAllocate`.
The failed set is never consulted. -/
def processMsgAddCode (st : ServerState) (m : MsgAddCode) : HandlerResult :=
  if (dictContains st.runningJobs m.clientID) ∧
      m.ytCode ∈ ((dictGet st.runningJobs m.clientID).getD []) then
    { state := st
      replies := [⟨⟨m.queryID, textAlreadyBeingProcessed m.ytCode⟩, m.clientID⟩]
      selfMsgs := [] }
  else if (dictContains st.finishedJobs m.clientID) ∧
      m.ytCode ∈ ((dictGet st.finishedJobs m.clientID).getD []) then
    { state := st
      replies := [⟨⟨m.queryID, textAlreadyProcessed m.ytCode⟩, m.clientID⟩]
      selfMsgs := [] }
  else
    let job : Job := ⟨m.clientID, m.ytCode⟩
    let st1 := { st with queuedJobs := pySetAdd (QElem.jobElem job) st.queuedJobs }
    { state := dumpQueued st1
      replies := [⟨⟨m.queryID, textQueued m.ytCode⟩, m.clientID⟩]
      selfMsgs := [SrvMsg.allocate] }

/-- `Server.processMsgRetry`: `self._queuedJobs.update(self._failedJobs)`
iterates the failed dict, i.e. adds its keys (client ids) to the
queued set; then the whole failed dict is cleared, the queued and
failed files are dumped, and `MsgAllocate` is self-sent. -/
def processMsgRetry (st : ServerState) : HandlerResult :=
  let st1 := { st with
    queuedJobs := (dictKeys st.failedJobs).foldl
      (fun s k => pySetAdd (QElem.intElem k) s) st.queuedJobs }
  let st2 := { st1 with failedJobs := [] }
  { state := dumpFailed (dumpQueued st2)
    replies := []
    selfMsgs := [SrvMsg.allocate] }

/-- `Server.processMsgDiscard`: `self._failedJobs.clear()` empties the
whole failed dict (every client), then the failed file is dumped. -/
def processMsgDiscard (st : ServerState) : HandlerResult :=
  { state := dumpFailed { st with failedJobs := [] }
    replies := []
    selfMsgs := [] }

/-- Python error kinds surfaced by the embedded handlers. -/
inductive PyErr
  | keyError
  | attributeError (attr : String)
  | valueError
deriving DecidableEq, Repr

/-- `Server.processMsgAck`: remove the acknowledged job's code from
the sender's running set (`KeyError` if absent), insert it into the
finished or failed dict according to `success`, dump all four files
and self-send `MsgAllocate`. -/
def processMsgAck (st : ServerState) (job : Job) (success : Bool) :
    Except PyErr HandlerResult :=
  match dictGet st.runningJobs job.clientID with
  | none => Except.error PyErr.keyError
  | some s =>
      match pySetRemove job.ytCode s with
      | Except.error _ => Except.error PyErr.keyError
      | Except.ok s1 =>
          let st1 := { st with runningJobs := dictSet st.runningJobs job.clientID s1 }
          let st2 :=
            if success then
              { st1 with finishedJobs := dictAddCode st1.finishedJobs job.clientID job.ytCode }
            else
              { st1 with failedJobs := dictAddCode st1.failedJobs job.clientID job.ytCode }
          Except.ok
            { state := dumpAll st2
              replies := []
              selfMsgs := [SrvMsg.allocate] }

/-! ## Worker pool and task allocation -/

/-- A worker thread's observable state.  `free` is the `_free` flag
the server polls; `inbox` holds `MsgTask` messages queued to the
worker's mailbox but not yet started; `current` is the job inside
`processMsgTask` whose download has not yet completed.  `_free` is set
to `False` only when `processMsgTask` starts, so a worker with a
non-empty inbox still reports `free = true`. -/
structure WorkerState where
  free : Bool
  inbox : List Job
  current : Option Job
deriving DecidableEq, Repr

/-- A worker as constructed in `Server.__init__`. -/
def initWorker : WorkerState :=
  { free := true, inbox := [], current := none }

/-- `Server.processMsgAllocate`: iterate the worker list; for each
worker reporting `free()`, pop an element off `_queuedJobs`
(`KeyError` on an empty set means `continue`), add its code to the
popped element's client's running set, dump the queued and processing
files, and enqueue `MsgTask(job)` to that worker.  Popping one of the
plain ints that `processMsgRetry` leaves in the set raises
`AttributeError` at `job.clientID`. -/
def processMsgAllocate (st : ServerState) (ws : List WorkerState) :
    Except PyErr (ServerState × List WorkerState) :=
  match ws with
  | [] => Except.ok (st, [])
  | w :: rest =>
      if w.free then
        match st.queuedJobs with
        | [] =>
            (processMsgAllocate st rest).map (fun r => (r.1, w :: r.2))
        | e :: q =>
            match e with
            | QElem.intElem _ => Except.error (PyErr.attributeError ("clientID"))
            | QElem.jobElem job =>
                let st1 := { st with
                  queuedJobs := q
                  runningJobs := dictAddCode st.runningJobs job.clientID job.ytCode }
                let st2 := dumpProcessing (dumpQueued st1)
                let w1 := { w with inbox := w.inbox ++ [job] }
                (processMsgAllocate st2 rest).map (fun r => (r.1, w1 :: r.2))
      else
        (processMsgAllocate st rest).map (fun r => (r.1, w :: r.2))

/-! ## The interleaved system

The server loop, each worker thread and the transport run
concurrently; they interact only through mailboxes.  `SysState` holds
the server's registry, the workers, and the server's inbox; `Step`
enumerates the atomic transitions: a client message arriving, the
server processing the head of its inbox, a worker starting a queued
task (this is where `_free` becomes `False`), and a worker finishing
its download (emitting `MsgAck` and becoming free again).  The
download outcome is environmental and appears as a parameter of the
finishing step. -/
structure SysState where
  server : ServerState
  workers : List WorkerState
  inbox : List SrvMsg
deriving DecidableEq, Repr

/-- The system as started with `numThreads = n`. -/
def initSys (n : Nat) : SysState :=
  { server := initServerState
    workers := List.replicate n initWorker
    inbox := [] }

/-- Client messages that can arrive at the server's mailbox.  (The
read-only `MsgList` handler and the `MsgAddList` handler, which
mutates nothing before raising, are omitted from the transition
system; neither affects the job registry.) -/
def clientMsg : SrvMsg → Prop
  | SrvMsg.addCode _ => True
  | SrvMsg.retry => True
  | SrvMsg.discard => True
  | _ => False

/-- Processing the head message of the server inbox.  Handler errors
(which would propagate out of the processing loop) produce no
transition; `none` marks them. -/
def serverHandle (st : ServerState) (ws : List WorkerState) (m : SrvMsg) :
    Option (ServerState × List WorkerState × List SrvMsg) :=
  match m with
  | SrvMsg.addCode msg =>
      let r := processMsgAddCode st msg
      some (r.state, ws, r.selfMsgs)
  | SrvMsg.retry =>
      let r := processMsgRetry st
      some (r.state, ws, r.selfMsgs)
  | SrvMsg.discard =>
      let r := processMsgDiscard st
      some (r.state, ws, r.selfMsgs)
  | SrvMsg.allocate =>
      match processMsgAllocate st ws with
      | Except.ok (st1, ws1) => some (st1, ws1, [])
      | Except.error _ => none
  | SrvMsg.ack job success =>
      match processMsgAck st job success with
      | Except.ok r => some (r.state, ws, r.selfMsgs)
      | Except.error _ => none

/-- One atomic transition of the interleaved system. -/
inductive Step : SysState → SysState → Prop
  | recv (s : SysState) (m : SrvMsg) (hm : clientMsg m) :
      Step s { s with inbox := s.inbox ++ [m] }
  | server (s : SysState) (m : SrvMsg) (rest : List SrvMsg)
      (st1 : ServerState) (ws1 : List WorkerState) (out : List SrvMsg)
      (hq : s.inbox = m :: rest)
      (hh : serverHandle s.server s.workers m = some (st1, ws1, out)) :
      Step s { server := st1, workers := ws1, inbox := rest ++ out }
  | workerStart (s : SysState) (i : Nat) (w : WorkerState) (job : Job)
      (rest : List Job)
      (hw : s.workers.get? i = some w) (hi : w.inbox = job :: rest)
      (hidle : w.current = none) :
      Step s { s with
        workers := s.workers.set i { w with free := false, inbox := rest, current := some job } }
  | workerFinish (s : SysState) (i : Nat) (w : WorkerState) (job : Job)
      (success : Bool)
      (hw : s.workers.get? i = some w) (hc : w.current = some job) :
      Step s { s with
        workers := s.workers.set i { w with free := true, current := none }
        inbox := s.inbox ++ [SrvMsg.ack job success] }

/-- Reachability from the freshly started system. -/
def Reachable (n : Nat) (s : SysState) : Prop :=
  Relation.ReflTransGen Step (initSys n) s

/-! ## Job-membership notions used by the invariants -/

/-- The job sits in `_queuedJobs` (as a `Job`, not as one of the ints
left by `processMsgRetry`). -/
def jobQueued (st : ServerState) (j : Job) : Prop :=
  QElem.jobElem j ∈ st.queuedJobs

/-- Membership in `_runningJobs`. -/
def jobRunning (st : ServerState) (j : Job) : Prop :=
  jobInDict st.runningJobs j

/-- Membership in `_finishedJobs`. -/
def jobFinished (st : ServerState) (j : Job) : Prop :=
  jobInDict st.finishedJobs j

/-- Membership in `_failedJobs`. -/
def jobFailed (st : ServerState) (j : Job) : Prop :=
  jobInDict st.failedJobs j

/-- The jobs a single worker holds: queued tasks plus the download in
progress. -/
def workerLoad (w : WorkerState) : List Job :=
  w.inbox ++ w.current.toList

/-- The jobs held across a worker pool. -/
def workerJobs (ws : List WorkerState) : List Job :=
  (ws.map workerLoad).flatten

/-- The jobs of the `MsgAck` messages sitting in a mailbox. -/
def ackJobs (msgs : List SrvMsg) : List Job :=
  msgs.filterMap (fun m =>
    match m with
    | SrvMsg.ack job _ => some job
    | _ => none)

/-- All jobs handed to workers but not yet acknowledged-and-processed:
queued tasks, downloads in progress, and `MsgAck` messages waiting in
the server inbox. -/
def inFlight (s : SysState) : List Job :=
  workerJobs s.workers ++ ackJobs s.inbox

/-- Total size of a dict-of-sets collection. -/
def dictTotal (d : PyDict) : Nat :=
  (d.map (fun p => p.2.length)).sum

/-- Total number of running jobs, `sum(len(v) for v in
self._runningJobs.values())`. -/
def totalRunning (st : ServerState) : Nat :=
  dictTotal st.runningJobs

/-! ## Serialiser (`czcommunicator.py`)

Byte strings are modelled as `List Nat`.  The sentinels are the byte
values of `b"$@#cz>"` and `b"<#@$\r\n"`. -/

/-- `Serialiser._START`. -/
def START : List Nat := [36, 64, 35, 99, 122, 62]

/-- `Serialiser._END`. -/
def SEND : List Nat := [60, 35, 64, 36, 13, 10]

/-- `bytes.find(pattern)`: index of the first occurrence of `pat` as a
contiguous run, `none` where Python returns `-1`. -/
def listFind (pat : List Nat) : List Nat → Option Nat
  | [] => if pat.isPrefixOf ([] : List Nat) then some 0 else none
  | b :: rest =>
      if pat.isPrefixOf (b :: rest) then some 0
      else (listFind pat rest).map (fun n => n + 1)

/-- The language-agnostic wire-message variants (`msg/client.py` and
`MsgResponse` from `msg/server.py`).  Every client message carries the
`clientID` field that `BaseMsg.__init__` sets to `-1`; request
messages additionally carry a `queryID`. -/
inductive WireMsg
  | addCode (clientID : ClientId) (queryID : Nat) (ytCode : String)
  | addList (clientID : ClientId) (queryID : Nat) (ytCode : String)
  | retryMsg
  | discardMsg
  | listMsg (clientID : ClientId) (queryID : Nat)
  | response (queryID : Nat) (text : String)
deriving DecidableEq, Repr

/-- Modelled from the spec: the body encoding is "a structured binary
encoding of the language-agnostic message variants" (the Python
implementation delegates to the `pickle` stdlib, which is outside this
repository).  Ints are encoded with an explicit sign byte, strings
length-prefixed as their character codes; a leading tag byte selects
the variant. -/
def intEnc (i : Int) : List Nat :=
  if i < 0 then [0, (-i).toNat] else [1, i.toNat]

/-- Decode the two-element int encoding. -/
def intDec (sign mag : Nat) : Int :=
  if sign = 0 then -(mag : Int) else (mag : Int)

/-- String fields: length prefix followed by character codes. -/
def strEnc (s : String) : List Nat :=
  s.data.length :: s.data.map Char.toNat

/-- `Serialiser._pickle`, modelled from the spec (see `WireMsg`). -/
def pickleMsg : WireMsg → List Nat
  | WireMsg.addCode cid qid code => 0 :: intEnc cid ++ qid :: strEnc code
  | WireMsg.addList cid qid code => 1 :: intEnc cid ++ qid :: strEnc code
  | WireMsg.retryMsg => [2]
  | WireMsg.discardMsg => [3]
  | WireMsg.listMsg cid qid => 4 :: intEnc cid ++ [qid]
  | WireMsg.response qid text => 5 :: qid :: strEnc text

/-- `SerialiserError`. -/
inductive SerErr
  | badData
deriving DecidableEq, Repr

/-- Decode a length-prefixed string field occupying the whole rest. -/
def strDec (data : List Nat) : Option String :=
  match data with
  | [] => none
  | n :: cs =>
      if cs.length = n then some (String.mk (cs.map Char.ofNat)) else none

/-- `Serialiser._unpickle`, the inverse of `pickleMsg` (modelled from
the spec, like `pickleMsg`). -/
def unpickleMsg (data : List Nat) : Except SerErr WireMsg :=
  match data with
  | 0 :: sign :: mag :: qid :: rest =>
      match strDec rest with
      | some s => Except.ok (WireMsg.addCode (intDec sign mag) qid s)
      | none => Except.error SerErr.badData
  | 1 :: sign :: mag :: qid :: rest =>
      match strDec rest with
      | some s => Except.ok (WireMsg.addList (intDec sign mag) qid s)
      | none => Except.error SerErr.badData
  | [2] => Except.ok WireMsg.retryMsg
  | [3] => Except.ok WireMsg.discardMsg
  | [4, sign, mag, qid] => Except.ok (WireMsg.listMsg (intDec sign mag) qid)
  | 5 :: qid :: rest =>
      match strDec rest with
      | some s => Except.ok (WireMsg.response qid s)
      | none => Except.error SerErr.badData
  | _ => Except.error SerErr.badData

/-- `Serialiser.encode`: `START + pickle(obj) + END`. -/
def encode (m : WireMsg) : List Nat :=
  START ++ pickleMsg m ++ SEND

/-- `Serialiser.decode`: check the fixed start and end sentinels, then
unpickle `data[lenSTART:-lenEND]` - the stripping is by the fixed
sentinel lengths, not by searching, so sentinel bytes inside the body
are harmless here. -/
def decode (data : List Nat) : Except SerErr WireMsg :=
  if START.isPrefixOf data then
    if SEND.isSuffixOf data then
      unpickleMsg ((data.drop START.length).take (data.length - START.length - SEND.length))
    else Except.error SerErr.badData
  else Except.error SerErr.badData

/-- The serialiser's per-sender accumulation buffers
(`self._buffers`); a missing key behaves as the empty byte string
because the `KeyError` branch assigns the incoming data directly. -/
def SerBuffers := Nat → List Nat

/-- `Serialiser.__init__`. -/
def initBuffers : SerBuffers := fun _ => []

/-- `Serialiser.addAndDecode(data, ID)`: append the packet to the
sender's buffer; search for `START` (returning `None` and keeping the
buffer when absent), drop everything before it, search for `END`
(returning `None` when absent), and otherwise extract one body, leave
the remainder buffered, and unpickle.  At most one message is produced
per call. -/
def addAndDecode (bufs : SerBuffers) (data : List Nat) (id : Nat) :
    SerBuffers × Option (Except SerErr WireMsg) :=
  let buf := bufs id ++ data
  match listFind START buf with
  | none => (fun i => if i = id then buf else bufs i, none)
  | some start =>
      let buf1 := buf.drop start
      match listFind SEND buf1 with
      | none => (fun i => if i = id then buf1 else bufs i, none)
      | some e =>
          let body := (buf1.take e).drop START.length
          let buf2 := buf1.drop (e + SEND.length)
          (fun i => if i = id then buf2 else bufs i, some (unpickleMsg body))

/-- Feed a list of packets from one sender, one `addAndDecode` call
per packet (exactly what `Protocol.threadCode` does), collecting the
decoded messages in order. -/
def feedPackets (bufs : SerBuffers) (id : Nat) :
    List (List Nat) → SerBuffers × List (Except SerErr WireMsg)
  | [] => (bufs, [])
  | p :: ps =>
      let (bufs1, out) := addAndDecode bufs p id
      let (bufs2, outs) := feedPackets bufs1 id ps
      (bufs2, (out.toList) ++ outs)

/-! ## Protocol layer (`protocol.py`) and reply routing -/

/-- `Protocol.threadCode`, one loop iteration on an arriving packet:
run the serialiser and hand any decoded message to the subscriber
*unchanged* - no field of the decoded value is modified, in particular
`clientID` keeps whatever value the sending side pickled
(`BaseMsg.__init__` sets it to `-1`). -/
def protocolDeliver (bufs : SerBuffers) (packetData : List Nat) (sender : Nat) :
    SerBuffers × Option WireMsg :=
  match addAndDecode bufs packetData sender with
  | (b, none) => (b, none)
  | (b, some (Except.error _)) => (b, none)
  | (b, some (Except.ok m)) => (b, some m)

/-- `Communicator.send` in server mode: `clientID = None` broadcasts,
a negative or out-of-range id raises `ValueError`, a closed slot drops
the message, otherwise the message goes to exactly that connection.
`connections` holds `none` for closed slots.  The result lists the
receiving client ids. -/
def commSend (connections : List Bool) (clientID : Option Int) :
    Except PyErr (List Nat) :=
  match clientID with
  | none =>
      Except.ok ((List.range connections.length).filter
        (fun i => connections.getD i false))
  | some cid =>
      if cid < 0 ∨ (connections.length : Int) ≤ cid then
        Except.error PyErr.valueError
      else if connections.getD cid.toNat false then
        Except.ok [cid.toNat]
      else
        Except.ok []

/-! ## `processMsgAddList` (`server.py`)

The handler first calls `ytconnector.getYTList` (external downloader;
its outcome is a parameter here).  On failure it executes
`message.responseBuffer.put(err)`, and on success its loop body
evaluates `msg.client.MsgAddCode(code, message.responseBuffer)` - but
the `MsgAddList` defined in `msg/client.py` has no `responseBuffer`
attribute (only `clientID`, `queryID`, `ytCode`), so either branch
raises `AttributeError` before any state change or reply; only an
empty expansion (which `getYTList` never returns) completes, doing
nothing. -/
def processMsgAddList (st : ServerState) (expansion : Option (List Code)) :
    Except PyErr HandlerResult :=
  match expansion with
  | none => Except.error (PyErr.attributeError ("responseBuffer"))
  | some [] => Except.ok { state := st, replies := [], selfMsgs := [] }
  | some (_ :: _) => Except.error (PyErr.attributeError ("responseBuffer"))

/-! ## Deterministic trace runners

Function forms of the `Step` constructors, used to build concrete
reachable states. -/

/-- Arrival of one client message. -/
def recvMsg (m : SrvMsg) (s : SysState) : SysState :=
  { s with inbox := s.inbox ++ [m] }

/-- The server processes the head of its inbox (identity when the
inbox is empty or the handler raises). -/
def runServer (s : SysState) : SysState :=
  match s.inbox with
  | [] => s
  | m :: rest =>
      match serverHandle s.server s.workers m with
      | some (st1, ws1, out) => { server := st1, workers := ws1, inbox := rest ++ out }
      | none => s

/-- Worker `i` dequeues its next task (identity when it has none or is
still busy). -/
def runWorkerStart (i : Nat) (s : SysState) : SysState :=
  match s.workers.get? i with
  | some w =>
      match w.current with
      | none =>
          match w.inbox with
          | job :: rest =>
              { s with workers := s.workers.set i { w with free := false, inbox := rest, current := some job } }
          | [] => s
      | some _ => s
  | none => s

/-- Worker `i` finishes its download with the given outcome. -/
def runWorkerFinish (i : Nat) (success : Bool) (s : SysState) : SysState :=
  match s.workers.get? i with
  | some w =>
      match w.current with
      | some job =>
          { s with
            workers := s.workers.set i { w with free := true, current := none }
            inbox := s.inbox ++ [SrvMsg.ack job success] }
      | none => s
  | none => s

/-! ## Invariant vocabulary -/

/-- Structural well-formedness of a dict-of-sets: unique keys, and
each value a duplicate-free list (a Python set). -/
def dictWF (d : PyDict) : Prop :=
  (d.map (fun p => p.1)).Nodup ∧ ∀ p ∈ d, p.2.Nodup

/-- Structural well-formedness of the registry. -/
def stateWF (st : ServerState) : Prop :=
  st.queuedJobs.Nodup ∧ dictWF st.runningJobs ∧ dictWF st.finishedJobs ∧
    dictWF st.failedJobs

/-- Pairwise disjointness of the queued, running and finished
collections, job-wise. -/
def disjQRF (st : ServerState) : Prop :=
  ∀ j : Job,
    ¬(jobQueued st j ∧ jobRunning st j) ∧
    ¬(jobQueued st j ∧ jobFinished st j) ∧
    ¬(jobRunning st j ∧ jobFinished st j)

/-- The server-side inductive invariant, relative to the list `fl` of
dispatched-but-unacknowledged jobs: structural well-formedness,
disjointness of queued/running/finished, every dispatched-unacked job
is running, dispatched-unacked jobs are pairwise distinct, and the
size of `Running` equals the number of dispatched-unacked jobs. -/
def InvS (st : ServerState) (fl : List Job) : Prop :=
  stateWF st ∧ disjQRF st ∧
    (∀ j ∈ fl, jobRunning st j) ∧
    fl.Nodup ∧
    totalRunning st = fl.length

/-- The system invariant: `InvS` with the in-flight jobs of the whole
system. -/
def SysInv (s : SysState) : Prop :=
  InvS s.server (inFlight s)

/-! ## Frame streams (for the decoder theorems) -/

/-- One encoded frame around a body. -/
def frameOf (b : List Nat) : List Nat :=
  START ++ b ++ SEND

/-- The byte stream of a sequence of framed bodies. -/
def flatFrames (bs : List (List Nat)) : List Nat :=
  (bs.map frameOf).flatten

/-- A body is sentinel-clean when the first occurrence of the end
sentinel in `body ++ END` is the final one - i.e. no spurious `END`
occurs inside the body or across the junction. -/
def goodBody (b : List Nat) : Prop :=
  listFind SEND (b ++ SEND) = some b.length

instance (b : List Nat) : Decidable (goodBody b) := by
  unfold goodBody; infer_instance

/-- `chunksOK rbs t ps` states that, starting with `t` bytes of the
first remaining frame already buffered, every packet of `ps` completes
at most one frame of the remaining bodies `rbs`. -/
def chunksOK : List (List Nat) → Nat → List (List Nat) → Bool
  | _, _, [] => true
  | [], _, _ :: ps => chunksOK [] 0 ps
  | b :: bs, t, p :: ps =>
      if (frameOf b).length ≤ t + p.length then
        (match bs with
         | [] => true
         | b2 :: _ => decide (t + p.length - (frameOf b).length < (frameOf b2).length)) &&
        chunksOK bs (t + p.length - (frameOf b).length) ps
      else
        chunksOK (b :: bs) (t + p.length) ps

/-- Buffer-length bound maintained while feeding: with no bodies left
the buffer is empty, otherwise it holds a proper prefix of the next
frame. -/
def boundOK : List (List Nat) → Nat → Prop
  | [], t => t = 0
  | b :: _, t => t < (frameOf b).length

instance (st : ServerState) (j : Job) : Decidable (jobQueued st j) := by
  unfold jobQueued; infer_instance

instance (st : ServerState) (j : Job) : Decidable (jobRunning st j) := by
  unfold jobRunning; infer_instance

instance (st : ServerState) (j : Job) : Decidable (jobFinished st j) := by
  unfold jobFinished; infer_instance

instance (st : ServerState) (j : Job) : Decidable (jobFailed st j) := by
  unfold jobFailed; infer_instance

end Czytget

deriving instance DecidableEq for Except

namespace Czytget

/-! # Theorems -/

/-! ## `listFind` characterisation -/

theorem listFind_eq_some_iff (pat : List Nat) (l : List Nat) (n : Nat) :
    listFind pat l = some n ↔
      (pat.isPrefixOf (l.drop n) = true ∧
        ∀ m, m < n → pat.isPrefixOf (l.drop m) = false) := by
  induction l generalizing n with
  | nil =>
      unfold listFind
      by_cases hp : pat.isPrefixOf ([] : List Nat)
      · rw [if_pos hp]
        constructor
        · intro h
          injection h with h
          subst h
          exact ⟨by simpa using hp, fun m hm => absurd hm (Nat.not_lt_zero m)⟩
        · rintro ⟨h1, h2⟩
          cases n with
          | zero => rfl
          | succ k =>
              have hz := h2 0 (Nat.succ_pos k)
              rw [List.drop_nil] at hz
              simp [hz] at hp
      · rw [if_neg hp]
        constructor
        · intro h
          exact absurd h (by simp)
        · rintro ⟨h1, h2⟩
          rw [List.drop_nil] at h1
          exact absurd h1 hp
  | cons c cs ih =>
      unfold listFind
      by_cases hp : pat.isPrefixOf (c :: cs)
      · rw [if_pos hp]
        constructor
        · intro h
          injection h with h
          subst h
          exact ⟨by simpa using hp, fun m hm => absurd hm (Nat.not_lt_zero m)⟩
        · rintro ⟨h1, h2⟩
          cases n with
          | zero => rfl
          | succ k =>
              have hz := h2 0 (Nat.succ_pos k)
              rw [List.drop_zero] at hz
              simp [hz] at hp
      · rw [if_neg hp]
        constructor
        · intro h
          cases hfind : listFind pat cs with
          | none => rw [hfind] at h; exact absurd h (by simp)
          | some k =>
              rw [hfind] at h
              simp only [Option.map_some'] at h
              injection h with h
              subst h
              obtain ⟨g1, g2⟩ := (ih k).mp hfind
              refine ⟨g1, ?_⟩
              intro m hm
              cases m with
              | zero =>
                  rw [List.drop_zero]
                  exact Bool.eq_false_iff.mpr hp
              | succ m1 =>
                  exact g2 m1 (by omega)
        · rintro ⟨h1, h2⟩
          cases n with
          | zero =>
              rw [List.drop_zero] at h1
              exact absurd h1 hp
          | succ k =>
              have g1 : pat.isPrefixOf (cs.drop k) = true := h1
              have g2 : ∀ m, m < k → pat.isPrefixOf (cs.drop m) = false :=
                fun m hm => h2 (m + 1) (by omega)
              rw [(ih k).mpr ⟨g1, g2⟩]
              rfl

theorem listFind_eq_none_iff (pat : List Nat) (l : List Nat) :
    listFind pat l = none ↔ ∀ n, pat.isPrefixOf (l.drop n) = false := by
  induction l with
  | nil =>
      unfold listFind
      by_cases hp : pat.isPrefixOf ([] : List Nat)
      · rw [if_pos hp]
        constructor
        · intro h
          exact absurd h (by simp)
        · intro h
          have := h 0
          rw [List.drop_nil] at this
          simp [this] at hp
      · rw [if_neg hp]
        refine ⟨fun _ n => ?_, fun _ => rfl⟩
        rw [List.drop_nil]
        exact Bool.eq_false_iff.mpr hp
  | cons c cs ih =>
      unfold listFind
      by_cases hp : pat.isPrefixOf (c :: cs)
      · rw [if_pos hp]
        constructor
        · intro h
          exact absurd h (by simp)
        · intro h
          have := h 0
          rw [List.drop_zero] at this
          simp [this] at hp
      · rw [if_neg hp]
        constructor
        · intro h n
          have hin : listFind pat cs = none := by
            cases hfind : listFind pat cs with
            | none => rfl
            | some k => rw [hfind] at h; exact absurd h (by simp)
          cases n with
          | zero =>
              rw [List.drop_zero]
              exact Bool.eq_false_iff.mpr hp
          | succ k => exact (ih.mp hin) k
        · intro h
          have hin : listFind pat cs = none :=
            ih.mpr (fun n => h (n + 1))
          rw [hin]
          rfl

theorem listFind_of_isPrefixOf (pat : List Nat) (l : List Nat)
    (h : pat.isPrefixOf l = true) : listFind pat l = some 0 :=
  (listFind_eq_some_iff pat l 0).mpr
    ⟨by rwa [List.drop_zero], fun m hm => absurd hm (Nat.not_lt_zero m)⟩

/-! ## Prefix utilities -/

theorem isPrefixOf_length_le (pat l : List Nat)
    (h : pat.isPrefixOf l = true) : pat.length ≤ l.length :=
  (List.isPrefixOf_iff_prefix.mp h).length_le

theorem isPrefixOf_append_left (pat x y : List Nat)
    (h : pat.isPrefixOf (x ++ y) = true) (hl : pat.length ≤ x.length) :
    pat.isPrefixOf x = true := by
  rw [List.isPrefixOf_iff_prefix] at h ⊢
  rw [List.prefix_iff_eq_take, List.take_append_of_le_length hl] at h
  rw [h]
  exact List.take_prefix _ _

theorem isPrefixOf_of_take (pat l : List Nat) (m : Nat)
    (h : pat.isPrefixOf (l.take m) = true) : pat.isPrefixOf l = true := by
  rw [List.isPrefixOf_iff_prefix] at h ⊢
  exact h.trans (List.take_prefix m l)

theorem isPrefixOf_append_of_ge (x y : List Nat) (t : Nat)
    (ht : x.length ≤ t) : x.isPrefixOf ((x ++ y).take t) = true := by
  rw [List.isPrefixOf_iff_prefix, List.take_append_eq_append_take,
    List.take_of_length_le ht]
  exact List.prefix_append x _

/-! ## Codec lemmas -/

theorem strDec_strEnc (s : String) : strDec (strEnc s) = some s := by
  simp only [strDec, strEnc, List.length_map, if_pos rfl, List.map_map]
  have : (Char.ofNat ∘ Char.toNat) = id := by
    funext c
    exact Char.ofNat_toNat c
  simp [this]

theorem intDec_neg (i : Int) (hi : i < 0) : intDec 0 (-i).toNat = i := by
  simp [intDec, Int.toNat_of_nonneg (by omega : (0 : Int) ≤ -i)]

theorem intDec_nonneg (i : Int) (hi : 0 ≤ i) : intDec 1 i.toNat = i := by
  simp [intDec, Int.toNat_of_nonneg hi]

theorem unpickle_pickle (m : WireMsg) : unpickleMsg (pickleMsg m) = Except.ok m := by
  cases m with
  | addCode cid qid code =>
      by_cases hi : cid < 0
      · simp [pickleMsg, intEnc, hi, unpickleMsg, strDec_strEnc, intDec_neg cid hi]
      · simp [pickleMsg, intEnc, hi, unpickleMsg, strDec_strEnc,
          intDec_nonneg cid (le_of_not_lt hi)]
  | addList cid qid code =>
      by_cases hi : cid < 0
      · simp [pickleMsg, intEnc, hi, unpickleMsg, strDec_strEnc, intDec_neg cid hi]
      · simp [pickleMsg, intEnc, hi, unpickleMsg, strDec_strEnc,
          intDec_nonneg cid (le_of_not_lt hi)]
  | retryMsg => rfl
  | discardMsg => rfl
  | listMsg cid qid =>
      by_cases hi : cid < 0
      · simp [pickleMsg, intEnc, hi, unpickleMsg, intDec_neg cid hi]
      · simp [pickleMsg, intEnc, hi, unpickleMsg, intDec_nonneg cid (le_of_not_lt hi)]
  | response qid text =>
      simp [pickleMsg, unpickleMsg, strDec_strEnc]

/-- C10.  For every message value whose pickling succeeds,
`Serialiser.decode` applied to `Serialiser.encode` returns the
original message: `encode` brackets the pickled body with the fixed
`START` and `END` sentinels and `decode` strips exactly those prefix
and suffix lengths, so this holds for every body - including bodies
that contain the sentinel byte sequences (e.g. a `response` whose text
spells them out), since `decode` never searches for the sentinels. -/
theorem claim_C10_decode_encode (m : WireMsg) :
    decode (encode m) = Except.ok m := by
  have hshape : encode m = START ++ ((pickleMsg m) ++ SEND) := by
    simp [encode]
  have hpre : START.isPrefixOf (encode m) = true := by
    rw [hshape]
    exact List.isPrefixOf_iff_prefix.mpr (List.prefix_append _ _)
  have hsuf : SEND.isSuffixOf (encode m) = true := by
    have : encode m = (START ++ pickleMsg m) ++ SEND := by simp [encode]
    rw [this]
    exact List.isSuffixOf_iff_suffix.mpr (List.suffix_append _ _)
  have hdrop : (encode m).drop START.length = pickleMsg m ++ SEND := by
    rw [hshape]
    exact List.drop_left' rfl
  have hlen : (encode m).length - START.length - SEND.length = (pickleMsg m).length := by
    simp [encode, START, SEND]
  unfold decode
  rw [if_pos hpre, if_pos hsuf, hdrop, hlen, List.take_left' rfl]
  exact unpickle_pickle m

/-! ## Retry (claim C2) -/

/-- C2 (evidence of the code bug).  With `Failed = {7: {"a"}, 8: {"b"}}`,
`processMsgRetry` empties the whole failed dict but inserts the dict's
*keys* (the ints 7 and 8) into `_queuedJobs` instead of the failed
codes: no `Job` at all enters the queued set, so the failed set `F` of
client 7 does not end up in `Queued`, and client 8's failed set is
destroyed as well.  The queued and failed files are dumped and
`MsgAllocate` is self-sent, as the claim says. -/
theorem claim_C2_retry_failing_input :
    (processMsgRetry { initServerState with failedJobs := [(7, [("a" : Code)]), (8, ["b"])] }).state.failedJobs = [] ∧
    (processMsgRetry { initServerState with failedJobs := [(7, [("a" : Code)]), (8, ["b"])] }).state.queuedJobs
      = [QElem.intElem 7, QElem.intElem 8] ∧
    ¬ jobQueued (processMsgRetry { initServerState with failedJobs := [(7, [("a" : Code)]), (8, ["b"])] }).state ⟨7, "a"⟩ ∧
    dictGet (processMsgRetry { initServerState with failedJobs := [(7, [("a" : Code)]), (8, ["b"])] }).state.failedJobs 8 = none ∧
    (processMsgRetry { initServerState with failedJobs := [(7, [("a" : Code)]), (8, ["b"])] }).state.files.queuedFile
      = some (PyVal.vset [QElem.intElem 7, QElem.intElem 8]) ∧
    (processMsgRetry { initServerState with failedJobs := [(7, [("a" : Code)]), (8, ["b"])] }).state.files.failedFile
      = some (PyVal.vdict []) ∧
    (processMsgRetry { initServerState with failedJobs := [(7, [("a" : Code)]), (8, ["b"])] }).selfMsgs
      = [SrvMsg.allocate] := by
  refine ⟨rfl, rfl, ?_, rfl, rfl, rfl, rfl⟩
  decide

/-! ## Discard (claim C9) -/

/-- C9 (counterexample).  With `Failed = {1: {"a"}, 2: {"b"}}`, a
`Discard` issued by client 1 also erases client 2's failed jobs:
`Failed[2]` is not left unchanged, contradicting the claim. -/
theorem claim_C9_discard_counterexample :
    dictGet (processMsgDiscard { initServerState with failedJobs := [(1, [("a" : Code)]), (2, ["b"])] }).state.failedJobs 2
      ≠ dictGet ({ initServerState with failedJobs := [(1, [("a" : Code)]), (2, ["b"])] } : ServerState).failedJobs 2 := by
  decide

/-- C9 (amended).  `processMsgDiscard` clears *every* client's jobs
from `Failed` (the whole dict), leaves `Queued`, `Running` and
`Finished` unchanged, persists the failed file, sends no reply and
self-sends nothing. -/
theorem claim_C9_discard_amended (st : ServerState) :
    (processMsgDiscard st).state.failedJobs = [] ∧
    (processMsgDiscard st).state.queuedJobs = st.queuedJobs ∧
    (processMsgDiscard st).state.runningJobs = st.runningJobs ∧
    (processMsgDiscard st).state.finishedJobs = st.finishedJobs ∧
    (processMsgDiscard st).state.files.failedFile = some (PyVal.vdict []) ∧
    (processMsgDiscard st).replies = [] ∧
    (processMsgDiscard st).selfMsgs = [] := by
  refine ⟨rfl, rfl, rfl, rfl, rfl, rfl, rfl⟩

/-! ## AddList (claim C6) -/

/-- C6.  `processMsgAddList` never behaves like a sequence of
`AddCode`s: whatever the playlist expansion returns, the handler
raises `AttributeError` on `message.responseBuffer` (a field
`MsgAddList` does not have) before sending any reply or touching any
state - on expansion failure in the error branch, and on success in
the first loop iteration (`getYTList` never returns an empty set, so
the silent `some []` case cannot arise). -/
theorem claim_C6_addList_raises (st : ServerState) (codes : List Code) :
    processMsgAddList st none = Except.error (PyErr.attributeError ("responseBuffer")) ∧
    (codes ≠ [] →
      processMsgAddList st (some codes)
        = Except.error (PyErr.attributeError ("responseBuffer"))) := by
  constructor
  · rfl
  · intro h
    cases codes with
    | nil => exact absurd rfl h
    | cons c cs => rfl

/-- Witness for C6 at a concrete expansion `{a, b, c}`. -/
theorem claim_C6_addList_raises_witness :
    processMsgAddList initServerState (some [("a" : Code), "b", "c"])
      = Except.error (PyErr.attributeError ("responseBuffer")) :=
  (claim_C6_addList_raises initServerState ["a", "b", "c"]).2 (by decide)

/-! ## Persistence round trip (claim C7) -/

/-- C7.  After `_dumpAll` the queued file does round-trip through
`_loadFile`, but the three dict-valued collections do not: `_dumpFile`
pickles `_runningJobs` / `_finishedJobs` / `_failedJobs` as dicts,
and `_loadFile` raises `ServerError` ("corrupted data file") on any
payload whose type is not `set` - so dump-then-load fails on three of
the four files for every server state, contradicting the claim. -/
theorem claim_C7_dump_load (st : ServerState) :
    loadFile (dumpAll st).files.queuedFile = Except.ok (PyVal.vset st.queuedJobs) ∧
    loadFile (dumpAll st).files.processingFile = Except.error ServerErr.corruptedDataFile ∧
    loadFile (dumpAll st).files.finishedFile = Except.error ServerErr.corruptedDataFile ∧
    loadFile (dumpAll st).files.failedFile = Except.error ServerErr.corruptedDataFile := by
  refine ⟨rfl, rfl, rfl, rfl⟩

/-! ## Dict membership lemmas -/

theorem dictContains_eq_isSome (d : PyDict) (k : ClientId) :
    dictContains d k = (dictGet d k).isSome := by
  unfold dictContains dictGet
  induction d with
  | nil => rfl
  | cons p ps ih =>
      by_cases h : p.1 = k <;> simp [List.find?_cons, h, ih]

theorem jobInDict_iff (d : PyDict) (j : Job) :
    jobInDict d j ↔
      (dictContains d j.clientID = true ∧
        j.ytCode ∈ (dictGet d j.clientID).getD []) := by
  unfold jobInDict
  rw [dictContains_eq_isSome]
  cases hg : dictGet d j.clientID with
  | none => simp
  | some s => simp

/-! ## AddCode replies (claim C5) -/

/-- C5 (counterexample).  With `(5, "C")` running, `AddCode(5, 3, "C")`
produces exactly one reply - carrying the query id and leaving the
sets unchanged - but its text is "YT code 'C' already being
processed"; the words "already processing" promised by the claim do
not occur in it. -/
theorem claim_C5_counterexample :
    (processMsgAddCode { initServerState with runningJobs := [(5, [("C" : Code)])] }
        ⟨5, 3, "C"⟩).replies
      = [⟨⟨3, textAlreadyBeingProcessed ("C")⟩, 5⟩] ∧
    ¬ (("already processing").data <:+: (textAlreadyBeingProcessed ("C")).data) := by
  constructor
  · rfl
  · decide

/-- C5 (amended).  When the job is already running, `processMsgAddCode`
sends exactly one reply with the request's `QueryId` and the text
"YT code '<item>' already being processed" (which says "already"),
changes no state and self-sends nothing; when the job is not running
but already finished, the same with text "YT code '<item>' already
processed". -/
theorem claim_C5_already_replies (st : ServerState) (m : MsgAddCode) :
    (jobRunning st ⟨m.clientID, m.ytCode⟩ →
      processMsgAddCode st m =
        { state := st
          replies := [⟨⟨m.queryID, textAlreadyBeingProcessed m.ytCode⟩, m.clientID⟩]
          selfMsgs := [] } ∧
      ("already").data <:+: (textAlreadyBeingProcessed m.ytCode).data) ∧
    (¬ jobRunning st ⟨m.clientID, m.ytCode⟩ →
      jobFinished st ⟨m.clientID, m.ytCode⟩ →
      processMsgAddCode st m =
        { state := st
          replies := [⟨⟨m.queryID, textAlreadyProcessed m.ytCode⟩, m.clientID⟩]
          selfMsgs := [] } ∧
      ("already").data <:+: (textAlreadyProcessed m.ytCode).data) := by
  have hrun := jobInDict_iff st.runningJobs ⟨m.clientID, m.ytCode⟩
  have hfin := jobInDict_iff st.finishedJobs ⟨m.clientID, m.ytCode⟩
  constructor
  · intro h
    have hc := hrun.mp h
    constructor
    · unfold processMsgAddCode
      rw [if_pos hc]
    · have h1 : ("already").data <:+: (" already being processed").data := by decide
      have h2 : textAlreadyBeingProcessed m.ytCode
          = ("YT code " ++ sq ++ m.ytCode ++ sq) ++ " already being processed" := by
        simp [textAlreadyBeingProcessed, String.append_assoc]
      rw [h2, String.data_append]
      exact h1.trans (List.IsSuffix.isInfix (List.suffix_append _ _))
  · intro hn h
    have hc := hfin.mp h
    constructor
    · unfold processMsgAddCode
      rw [if_neg (fun hx => hn (hrun.mpr hx)), if_pos hc]
    · have h1 : ("already").data <:+: (" already processed").data := by decide
      have h2 : textAlreadyProcessed m.ytCode
          = ("YT code " ++ sq ++ m.ytCode ++ sq) ++ " already processed" := by
        simp [textAlreadyProcessed, String.append_assoc]
      rw [h2, String.data_append]
      exact h1.trans (List.IsSuffix.isInfix (List.suffix_append _ _))

/-- Witness for the amended C5 at a concrete running and a concrete
finished job. -/
theorem claim_C5_already_replies_witness :
    processMsgAddCode { initServerState with runningJobs := [(5, [("C" : Code)])] }
        ⟨5, 3, "C"⟩ =
      { state := { initServerState with runningJobs := [(5, [("C" : Code)])] }
        replies := [⟨⟨3, textAlreadyBeingProcessed ("C")⟩, 5⟩]
        selfMsgs := [] } ∧
    processMsgAddCode { initServerState with finishedJobs := [(5, [("D" : Code)])] }
        ⟨5, 4, "D"⟩ =
      { state := { initServerState with finishedJobs := [(5, [("D" : Code)])] }
        replies := [⟨⟨4, textAlreadyProcessed ("D")⟩, 5⟩]
        selfMsgs := [] } := by
  constructor
  · exact ((claim_C5_already_replies
      { initServerState with runningJobs := [(5, [("C" : Code)])] }
      ⟨5, 3, "C"⟩).1 (by decide)).1
  · exact ((claim_C5_already_replies
      { initServerState with finishedJobs := [(5, [("D" : Code)])] }
      ⟨5, 4, "D"⟩).2 (by decide) (by decide)).1

/-! ## Protocol delivery and reply routing (claim C1) -/

/-- C1 (evidence of the code bug).  A remote client constructs
`MsgAddCode` with `clientID = -1` (the `BaseMsg` default - nothing on
the client path ever sets it).  When its frame arrives from transport
sender 0, `Protocol.threadCode` hands the decoded message to the
server *unchanged* - no tagging with the sender's id happens anywhere
- so the server sees `clientID = -1`, addresses its reply to client
`-1`, and `Communicator.send` raises `ValueError` on the negative id:
the reply reaches no client at all. -/
theorem claim_C1_no_sender_tagging :
    (protocolDeliver initBuffers (encode (WireMsg.addCode (-1) 5 ("ABCDEFGHIJK"))) 0).2
      = some (WireMsg.addCode (-1) 5 ("ABCDEFGHIJK")) ∧
    ((processMsgAddCode initServerState ⟨-1, 5, "ABCDEFGHIJK"⟩).replies.map
        (fun r => r.target)) = [(-1 : Int)] ∧
    commSend [true] (some (-1)) = Except.error PyErr.valueError := by
  refine ⟨by decide, rfl, by decide⟩

/-! ## Dict operation lemmas -/

theorem dictContains_iff_mem_keys (d : PyDict) (k : ClientId) :
    dictContains d k = true ↔ k ∈ dictKeys d := by
  induction d with
  | nil => simp [dictContains, dictGet, dictKeys]
  | cons p ps ih =>
      by_cases hp : p.1 = k
      · simp [dictContains, dictGet, dictKeys, hp]
      · simp only [dictContains, dictGet, if_neg hp, dictKeys, List.map_cons,
          List.mem_cons] at ih ⊢
        rw [ih]
        constructor
        · exact Or.inr
        · rintro (he | hm)
          · exact absurd he.symm hp
          · exact hm

theorem dictGet_dictSet_self (d : PyDict) (k : ClientId) (v : List Code) :
    dictGet (dictSet d k v) k = some v := by
  induction d with
  | nil => simp [dictSet, dictGet]
  | cons p ps ih =>
      by_cases hp : p.1 = k
      · simp [dictSet, dictGet, hp]
      · simp [dictSet, dictGet, hp, ih]

theorem dictGet_dictSet_ne (d : PyDict) (k k' : ClientId) (v : List Code)
    (h : k' ≠ k) :
    dictGet (dictSet d k v) k' = dictGet d k' := by
  induction d with
  | nil =>
      have hne : ¬ k = k' := fun he => h he.symm
      simp [dictSet, dictGet, hne]
  | cons p ps ih =>
      by_cases hp : p.1 = k
      · have hne : ¬ k = k' := fun he => h he.symm
        have hne2 : ¬ p.1 = k' := fun he => h (hp ▸ he).symm
        simp [dictSet, dictGet, hp, hne, hne2]
      · by_cases hk : p.1 = k'
        · simp [dictSet, dictGet, hp, hk, h]
        · simp [dictSet, dictGet, hp, hk, ih]

theorem dictKeys_cons (p : ClientId × List Code) (ps : PyDict) :
    dictKeys (p :: ps) = p.1 :: dictKeys ps := rfl

theorem dictKeys_dictSet_of_contains (d : PyDict) (k : ClientId) (v : List Code)
    (h : dictContains d k = true) :
    dictKeys (dictSet d k v) = dictKeys d := by
  induction d with
  | nil => simp [dictContains, dictGet] at h
  | cons p ps ih =>
      by_cases hp : p.1 = k
      · simp [dictSet, hp, dictKeys_cons]
      · simp only [dictContains, dictGet, if_neg hp] at h
        simp only [dictSet, if_neg hp, dictKeys_cons]
        rw [ih h]

theorem dictKeys_dictSet_of_not_contains (d : PyDict) (k : ClientId) (v : List Code)
    (h : dictContains d k = false) :
    dictKeys (dictSet d k v) = dictKeys d ++ [k] := by
  induction d with
  | nil => simp [dictSet, dictKeys]
  | cons p ps ih =>
      by_cases hp : p.1 = k
      · simp [dictContains, dictGet, hp] at h
      · simp only [dictContains, dictGet, if_neg hp] at h
        simp only [dictSet, if_neg hp, dictKeys_cons, List.cons_append]
        rw [ih h]

theorem dictSet_values_nodup (d : PyDict) (k : ClientId) (v : List Code)
    (hd : ∀ p ∈ d, p.2.Nodup) (hv : v.Nodup) :
    ∀ p ∈ dictSet d k v, p.2.Nodup := by
  induction d with
  | nil =>
      intro p hp
      simp only [dictSet, List.mem_singleton] at hp
      subst hp
      exact hv
  | cons q qs ih =>
      intro p hp
      by_cases hq : q.1 = k
      · simp only [dictSet, if_pos hq, List.mem_cons] at hp
        rcases hp with rfl | hp
        · exact hv
        · exact hd _ (List.mem_cons_of_mem _ hp)
      · simp only [dictSet, if_neg hq, List.mem_cons] at hp
        rcases hp with rfl | hp
        · exact hd _ (List.mem_cons_self _ _)
        · exact ih (fun r hr => hd r (List.mem_cons_of_mem _ hr)) p hp

theorem mem_pySetAdd {α : Type} [DecidableEq α] (x y : α) (s : List α) :
    x ∈ pySetAdd y s ↔ x = y ∨ x ∈ s := by
  unfold pySetAdd
  by_cases h : y ∈ s
  · rw [if_pos h]
    constructor
    · exact fun hx => Or.inr hx
    · rintro (rfl | hx)
      · exact h
      · exact hx
  · rw [if_neg h]
    simp [or_comm]

theorem nodup_pySetAdd {α : Type} [DecidableEq α] (y : α) (s : List α)
    (h : s.Nodup) : (pySetAdd y s).Nodup := by
  unfold pySetAdd
  by_cases hy : y ∈ s
  · rwa [if_pos hy]
  · rw [if_neg hy]
    simpa [List.nodup_append, hy] using h

theorem length_pySetAdd {α : Type} [DecidableEq α] (y : α) (s : List α) :
    (pySetAdd y s).length = if y ∈ s then s.length else s.length + 1 := by
  unfold pySetAdd
  by_cases hy : y ∈ s <;> simp [hy]

/-- The two `dictGet` facts characterising `dictAddCode`. -/
theorem dictGet_dictAddCode (d : PyDict) (k : ClientId) (c : Code) :
    dictGet (dictAddCode d k c) k = some (pySetAdd c ((dictGet d k).getD [])) ∧
    ∀ k', k' ≠ k → dictGet (dictAddCode d k c) k' = dictGet d k' := by
  unfold dictAddCode
  by_cases hc : dictContains d k
  · have hsome : (dictGet d k).isSome := by
      rw [← dictContains_eq_isSome]; exact hc
    obtain ⟨s, hs⟩ := Option.isSome_iff_exists.mp hsome
    simp only [if_pos hc, hs]
    exact ⟨by rw [dictGet_dictSet_self]; simp,
      fun k' hk => by rw [dictGet_dictSet_ne d k k' _ hk]⟩
  · have hget : dictGet d k = none := by
      cases hv : dictGet d k with
      | none => rfl
      | some s =>
          exact absurd (by rw [dictContains_eq_isSome, hv]; rfl) hc
    have h0 : dictGet (dictSet d k []) k = some [] := dictGet_dictSet_self d k []
    simp only [if_neg hc, h0, hget]
    exact ⟨by rw [dictGet_dictSet_self]; rfl,
      fun k' hk => by
        rw [dictGet_dictSet_ne _ k k' _ hk, dictGet_dictSet_ne d k k' _ hk]⟩

theorem job_eq_iff (j : Job) (k : ClientId) (c : Code) :
    j = ⟨k, c⟩ ↔ j.clientID = k ∧ j.ytCode = c := by
  cases j
  simp [Job.mk.injEq]

theorem jobInDict_dictAddCode (d : PyDict) (k : ClientId) (c : Code) (j : Job) :
    jobInDict (dictAddCode d k c) j ↔ (jobInDict d j ∨ j = ⟨k, c⟩) := by
  obtain ⟨hself, hother⟩ := dictGet_dictAddCode d k c
  by_cases hk : j.clientID = k
  · unfold jobInDict
    rw [hk, hself]
    cases hv : dictGet d k with
    | none => simp [mem_pySetAdd, job_eq_iff, hk, eq_comm]
    | some s =>
        simp only [Option.getD_some, mem_pySetAdd, job_eq_iff, hk, true_and,
          Option.mem_def]
        tauto
  · unfold jobInDict
    rw [hother j.clientID hk]
    have : ¬ j = ⟨k, c⟩ := by
      rw [job_eq_iff]
      exact fun hx => hk hx.1
    simp [this]

theorem dictGet_mem (d : PyDict) (k : ClientId) (s : List Code)
    (h : dictGet d k = some s) : (k, s) ∈ d := by
  induction d with
  | nil => exact absurd h (by simp [dictGet])
  | cons p ps ih =>
      by_cases hp : p.1 = k
      · simp only [dictGet, if_pos hp] at h
        injection h with h
        subst h
        subst hp
        exact List.mem_cons_self _ _
      · simp only [dictGet, if_neg hp] at h
        exact List.mem_cons_of_mem _ (ih h)

theorem dictGet_value_nodup (d : PyDict) (k : ClientId) (s : List Code)
    (hvals : ∀ p ∈ d, p.2.Nodup) (h : dictGet d k = some s) : s.Nodup :=
  hvals (k, s) (dictGet_mem d k s h)

theorem jobInDict_of_get (d : PyDict) (k : ClientId) (s : List Code) (c : Code)
    (h : dictGet d k = some s) :
    jobInDict d ⟨k, c⟩ ↔ c ∈ s := by
  unfold jobInDict
  simp [h]

theorem jobInDict_dictSet_erase (d : PyDict) (k : ClientId) (s : List Code)
    (x : Code) (hg : dictGet d k = some s) (hs : s.Nodup) (j : Job) :
    jobInDict (dictSet d k (s.erase x)) j ↔ (jobInDict d j ∧ j ≠ ⟨k, x⟩) := by
  by_cases hk : j.clientID = k
  · unfold jobInDict
    rw [hk, dictGet_dictSet_self, hg]
    simp only [hs.mem_erase_iff, Ne, job_eq_iff, hk, true_and]
    tauto
  · unfold jobInDict
    rw [dictGet_dictSet_ne d k _ _ hk]
    have : ¬ j = ⟨k, x⟩ := by
      rw [job_eq_iff]
      exact fun hx => hk hx.1
    simp [this]

theorem dictTotal_cons (p : ClientId × List Code) (ps : PyDict) :
    dictTotal (p :: ps) = p.2.length + dictTotal ps := by
  simp [dictTotal]

theorem dictTotal_dictSet (d : PyDict) (k : ClientId) (v s : List Code)
    (hg : dictGet d k = some s) :
    dictTotal (dictSet d k v) + s.length = dictTotal d + v.length := by
  induction d with
  | nil => exact absurd hg (by simp [dictGet])
  | cons p ps ih =>
      by_cases hp : p.1 = k
      · simp only [dictGet, if_pos hp] at hg
        injection hg with hg
        subst hg
        simp only [dictSet, if_pos hp, dictTotal_cons]
        omega
      · simp only [dictGet, if_neg hp] at hg
        simp only [dictSet, if_neg hp, dictTotal_cons]
        have := ih hg
        omega

theorem dictTotal_dictSet_of_not_contains (d : PyDict) (k : ClientId)
    (v : List Code) (h : dictContains d k = false) :
    dictTotal (dictSet d k v) = dictTotal d + v.length := by
  induction d with
  | nil => simp [dictSet, dictTotal]
  | cons p ps ih =>
      by_cases hp : p.1 = k
      · simp [dictContains, dictGet, hp] at h
      · simp only [dictContains, dictGet, if_neg hp] at h
        simp only [dictSet, if_neg hp, dictTotal_cons]
        have := ih h
        omega

theorem dictTotal_dictAddCode (d : PyDict) (k : ClientId) (c : Code)
    (hnot : ¬ jobInDict d ⟨k, c⟩) :
    dictTotal (dictAddCode d k c) = dictTotal d + 1 := by
  unfold dictAddCode
  by_cases hc : dictContains d k
  · have hsome : (dictGet d k).isSome := hc
    obtain ⟨s, hs⟩ := Option.isSome_iff_exists.mp hsome
    have hcs : c ∉ s := fun hm => hnot ((jobInDict_of_get d k s c hs).mpr hm)
    simp only [if_pos hc, hs]
    have h1 := dictTotal_dictSet d k (pySetAdd c s) s hs
    rw [length_pySetAdd, if_neg hcs] at h1
    omega
  · have hget : dictGet d k = none := by
      cases hv : dictGet d k with
      | none => rfl
      | some s => exact absurd (by rw [dictContains, hv]; rfl) hc
    have h0 : dictGet (dictSet d k []) k = some [] := dictGet_dictSet_self d k []
    simp only [if_neg hc, h0]
    have h1 := dictTotal_dictSet (dictSet d k []) k (pySetAdd c []) [] h0
    have h2 := dictTotal_dictSet_of_not_contains d k [] (by simpa using hc)
    have hpa : (pySetAdd c []).length = 1 := by simp [pySetAdd]
    rw [hpa] at h1
    simp only [List.length_nil] at h1 h2 ⊢
    omega

theorem dictAddCode_keys_nodup (d : PyDict) (k : ClientId) (c : Code)
    (h : (dictKeys d).Nodup) : (dictKeys (dictAddCode d k c)).Nodup := by
  unfold dictAddCode
  by_cases hc : dictContains d k
  · have hsome : (dictGet d k).isSome := hc
    obtain ⟨s, hs⟩ := Option.isSome_iff_exists.mp hsome
    simp only [if_pos hc, hs]
    rw [dictKeys_dictSet_of_contains d k _ hc]
    exact h
  · have h0 : dictGet (dictSet d k []) k = some [] := dictGet_dictSet_self d k []
    simp only [if_neg hc, h0]
    have hk1 : dictContains (dictSet d k []) k = true := by
      rw [dictContains, h0]; rfl
    rw [dictKeys_dictSet_of_contains _ k _ hk1,
      dictKeys_dictSet_of_not_contains d k [] (by simpa using hc)]
    have hkm : k ∉ dictKeys d := by
      rw [← dictContains_iff_mem_keys]
      simp [hc]
    simp [List.nodup_append, h, hkm]

theorem dictAddCode_values_nodup (d : PyDict) (k : ClientId) (c : Code)
    (h : ∀ p ∈ d, p.2.Nodup) : ∀ p ∈ dictAddCode d k c, p.2.Nodup := by
  unfold dictAddCode
  by_cases hc : dictContains d k
  · have hsome : (dictGet d k).isSome := hc
    obtain ⟨s, hs⟩ := Option.isSome_iff_exists.mp hsome
    simp only [if_pos hc, hs]
    exact dictSet_values_nodup d k _ h
      (nodup_pySetAdd c s (dictGet_value_nodup d k s h hs))
  · have h0 : dictGet (dictSet d k []) k = some [] := dictGet_dictSet_self d k []
    simp only [if_neg hc, h0]
    have h1 : ∀ p ∈ dictSet d k [], p.2.Nodup :=
      dictSet_values_nodup d k [] h List.nodup_nil
    exact dictSet_values_nodup _ k _ h1 (nodup_pySetAdd c [] List.nodup_nil)

theorem dictSet_erase_keys_nodup (d : PyDict) (k : ClientId) (s : List Code)
    (x : Code) (hg : dictGet d k = some s) (h : (dictKeys d).Nodup) :
    (dictKeys (dictSet d k (s.erase x))).Nodup := by
  rw [dictKeys_dictSet_of_contains d k _ (by rw [dictContains, hg]; rfl)]
  exact h

theorem dictSet_erase_values_nodup (d : PyDict) (k : ClientId) (s : List Code)
    (x : Code) (hvals : ∀ p ∈ d, p.2.Nodup) (hs : s.Nodup) :
    ∀ p ∈ dictSet d k (s.erase x), p.2.Nodup :=
  dictSet_values_nodup d k _ hvals (hs.erase x)

theorem dictTotal_dictSet_erase (d : PyDict) (k : ClientId) (s : List Code)
    (x : Code) (hg : dictGet d k = some s) (hx : x ∈ s) :
    dictTotal (dictSet d k (s.erase x)) + 1 = dictTotal d := by
  have h1 := dictTotal_dictSet d k (s.erase x) s hg
  have h2 : (s.erase x).length = s.length - 1 := List.length_erase_of_mem hx
  have h3 : 0 < s.length := List.length_pos_of_mem hx
  omega

/-! ## Queued-set lemmas -/

theorem jobElem_mem_foldl_int (ks : List ClientId) (s : List QElem) (j : Job) :
    QElem.jobElem j ∈ ks.foldl (fun acc k => pySetAdd (QElem.intElem k) acc) s
      ↔ QElem.jobElem j ∈ s := by
  induction ks generalizing s with
  | nil => simp
  | cons k ks ih =>
      rw [List.foldl_cons, ih]
      rw [mem_pySetAdd]
      simp

theorem nodup_foldl_int (ks : List ClientId) (s : List QElem) (h : s.Nodup) :
    (ks.foldl (fun acc k => pySetAdd (QElem.intElem k) acc) s).Nodup := by
  induction ks generalizing s with
  | nil => exact h
  | cons k ks ih =>
      rw [List.foldl_cons]
      exact ih _ (nodup_pySetAdd _ _ h)

/-! ## Worker pool and in-flight lemmas -/

theorem workerJobs_cons (w : WorkerState) (ws : List WorkerState) :
    workerJobs (w :: ws) = workerLoad w ++ workerJobs ws := by
  simp [workerJobs]

theorem ackJobs_append (xs ys : List SrvMsg) :
    ackJobs (xs ++ ys) = ackJobs xs ++ ackJobs ys := by
  simp [ackJobs]

theorem ackJobs_cons_ack (j : Job) (ok : Bool) (rest : List SrvMsg) :
    ackJobs (SrvMsg.ack j ok :: rest) = j :: ackJobs rest := by
  simp [ackJobs]

theorem ackJobs_nil : ackJobs ([] : List SrvMsg) = [] := rfl

theorem count_workerJobs_set (ws : List WorkerState) (i : Nat)
    (w w' : WorkerState) (hw : ws.get? i = some w) (a : Job) :
    (workerJobs (ws.set i w')).count a + (workerLoad w).count a
      = (workerJobs ws).count a + (workerLoad w').count a := by
  induction ws generalizing i with
  | nil => exact absurd hw (by simp)
  | cons b bs ih =>
      cases i with
      | zero =>
          simp only [List.get?_cons_zero, Option.some.injEq] at hw
          subst hw
          simp only [List.set_cons_zero, workerJobs_cons, List.count_append]
          omega
      | succ n =>
          simp only [List.get?_cons_succ] at hw
          have := ih n hw
          simp only [List.set_cons_succ, workerJobs_cons, List.count_append] at this ⊢
          omega

/-- Characterisation of one `processMsgAllocate` pass that returned
normally: some list `ds` of jobs was popped off the front of the
queued set, each entered the running dict and was dispatched to a
worker; the finished and failed dicts are untouched. -/
theorem processMsgAllocate_spec (ws : List WorkerState) (st st1 : ServerState)
    (ws1 : List WorkerState)
    (h : processMsgAllocate st ws = Except.ok (st1, ws1)) :
    ∃ ds : List Job,
      st.queuedJobs = ds.map QElem.jobElem ++ st1.queuedJobs ∧
      st1.runningJobs
        = ds.foldl (fun d j => dictAddCode d j.clientID j.ytCode) st.runningJobs ∧
      st1.finishedJobs = st.finishedJobs ∧
      st1.failedJobs = st.failedJobs ∧
      List.Perm (workerJobs ws1) (workerJobs ws ++ ds) := by
  induction ws generalizing st st1 ws1 with
  | nil =>
      unfold processMsgAllocate at h
      injection h with h
      injection h with h1 h2
      subst h1
      subst h2
      exact ⟨[], by simp, by simp, rfl, rfl, by simp [workerJobs]⟩
  | cons w rest ih =>
      unfold processMsgAllocate at h
      by_cases hf : w.free
      · rw [if_pos hf] at h
        cases hq : st.queuedJobs with
        | nil =>
            rw [hq] at h
            dsimp only at h
            cases hin : processMsgAllocate st rest with
            | error e => rw [hin] at h; exact absurd h (by simp [Except.map])
            | ok pr =>
                rw [hin] at h
                simp only [Except.map, Except.ok.injEq, Prod.mk.injEq] at h
                obtain ⟨hA, hB⟩ := h
                subst hA
                subst hB
                obtain ⟨ds, h1, h2, h3, h4, h5⟩ := ih st pr.1 pr.2 (by rw [hin])
                rw [hq] at h1
                refine ⟨ds, h1, h2, h3, h4, ?_⟩
                rw [workerJobs_cons, workerJobs_cons, List.append_assoc]
                exact h5.append_left (workerLoad w)
        | cons e q =>
            rw [hq] at h
            cases e with
            | intElem cid =>
                dsimp only at h
                exact absurd h (by simp)
            | jobElem job =>
                dsimp only at h
                cases hin : processMsgAllocate (dumpProcessing (dumpQueued
                    { st with
                      queuedJobs := q
                      runningJobs := dictAddCode st.runningJobs job.clientID job.ytCode })) rest with
                | error e =>
                    rw [hin] at h
                    exact absurd h (by simp [Except.map])
                | ok pr =>
                    rw [hin] at h
                    simp only [Except.map, Except.ok.injEq, Prod.mk.injEq] at h
                    obtain ⟨hA, hB⟩ := h
                    subst hA
                    subst hB
                    obtain ⟨ds, h1, h2, h3, h4, h5⟩ := ih _ pr.1 pr.2 (by rw [hin])
                    simp only [dumpProcessing, dumpQueued] at h1 h2 h3 h4
                    refine ⟨job :: ds, ?_, ?_, h3, h4, ?_⟩
                    · rw [List.map_cons, List.cons_append, ← h1]
                    · rw [List.foldl_cons]
                      exact h2
                    · rw [List.perm_iff_count]
                      intro a
                      have hc := List.perm_iff_count.mp h5 a
                      simp only [workerJobs_cons, List.count_append, workerLoad,
                        List.count_cons, List.count_nil] at hc ⊢
                      omega
      · rw [if_neg hf] at h
        cases hin : processMsgAllocate st rest with
        | error e => rw [hin] at h; exact absurd h (by simp [Except.map])
        | ok pr =>
            rw [hin] at h
            simp only [Except.map, Except.ok.injEq, Prod.mk.injEq] at h
            obtain ⟨hA, hB⟩ := h
            subst hA
            subst hB
            obtain ⟨ds, h1, h2, h3, h4, h5⟩ := ih st pr.1 pr.2 (by rw [hin])
            refine ⟨ds, h1, h2, h3, h4, ?_⟩
            rw [workerJobs_cons, workerJobs_cons, List.append_assoc]
            exact h5.append_left (workerLoad w)

/-- Feeding a popped batch `ds` into the running dict: membership,
well-formedness and size, provided the batch was duplicate-free and
none of it was running. -/
theorem dispatch_go (ds : List Job) (running : PyDict)
    (hkeys : (dictKeys running).Nodup) (hvals : ∀ p ∈ running, p.2.Nodup)
    (hdsnd : ds.Nodup)
    (hnotrun : ∀ j ∈ ds, ¬ jobInDict running j) :
    (∀ j, jobInDict
        (ds.foldl (fun d j => dictAddCode d j.clientID j.ytCode) running) j
      ↔ (jobInDict running j ∨ j ∈ ds)) ∧
    (dictKeys (ds.foldl (fun d j => dictAddCode d j.clientID j.ytCode) running)).Nodup ∧
    (∀ p ∈ ds.foldl (fun d j => dictAddCode d j.clientID j.ytCode) running, p.2.Nodup) ∧
    dictTotal (ds.foldl (fun d j => dictAddCode d j.clientID j.ytCode) running)
      = dictTotal running + ds.length := by
  induction ds generalizing running with
  | nil => exact ⟨fun j => by simp, hkeys, hvals, by simp⟩
  | cons j ds' ih =>
      have hnr : ¬ jobInDict running j := hnotrun j (List.mem_cons_self _ _)
      have hkeys1 := dictAddCode_keys_nodup running j.clientID j.ytCode hkeys
      have hvals1 := dictAddCode_values_nodup running j.clientID j.ytCode hvals
      have hjelem : (⟨j.clientID, j.ytCode⟩ : Job) = j := by cases j; rfl
      have hnotrun1 : ∀ j' ∈ ds', ¬ jobInDict
          (dictAddCode running j.clientID j.ytCode) j' := by
        intro j' hj' hmem
        rw [jobInDict_dictAddCode, hjelem] at hmem
        rcases hmem with hmem | rfl
        · exact hnotrun j' (List.mem_cons_of_mem _ hj') hmem
        · exact (List.nodup_cons.mp hdsnd).1 hj'
      obtain ⟨i1, i2, i3, i4⟩ := ih (dictAddCode running j.clientID j.ytCode)
        hkeys1 hvals1 (List.nodup_cons.mp hdsnd).2 hnotrun1
      have htot : dictTotal (dictAddCode running j.clientID j.ytCode)
          = dictTotal running + 1 := by
        apply dictTotal_dictAddCode
        rw [hjelem]
        exact hnr
      refine ⟨?_, i2, i3, ?_⟩
      · intro j''
        rw [List.foldl_cons, i1, jobInDict_dictAddCode, hjelem]
        simp only [List.mem_cons]
        tauto
      · rw [List.foldl_cons, i4, htot]
        simp
        omega

theorem job_eta (j : Job) : (⟨j.clientID, j.ytCode⟩ : Job) = j := by
  cases j
  rfl

/-! ## Invariant preservation by the server handlers -/

theorem invS_perm {st : ServerState} {fl fl' : List Job}
    (hp : List.Perm fl' fl) (h : InvS st fl) : InvS st fl' := by
  obtain ⟨hwf, hdisj, hfl, hnd, hc⟩ := h
  exact ⟨hwf, hdisj, fun j hj => hfl j (hp.mem_iff.mp hj),
    hp.nodup_iff.mpr hnd, by rw [hp.length_eq]; exact hc⟩

theorem invS_addCode (st : ServerState) (m : MsgAddCode) (fl : List Job)
    (h : InvS st fl) : InvS (processMsgAddCode st m).state fl := by
  obtain ⟨⟨hqnd, hrwf, hfwf, hdwf⟩, hdisj, hfl, hnd, hc⟩ := h
  unfold processMsgAddCode
  by_cases h1 : (dictContains st.runningJobs m.clientID = true) ∧
      m.ytCode ∈ ((dictGet st.runningJobs m.clientID).getD [])
  · rw [if_pos h1]
    exact ⟨⟨hqnd, hrwf, hfwf, hdwf⟩, hdisj, hfl, hnd, hc⟩
  · rw [if_neg h1]
    by_cases h2 : (dictContains st.finishedJobs m.clientID = true) ∧
        m.ytCode ∈ ((dictGet st.finishedJobs m.clientID).getD [])
    · rw [if_pos h2]
      exact ⟨⟨hqnd, hrwf, hfwf, hdwf⟩, hdisj, hfl, hnd, hc⟩
    · rw [if_neg h2]
      have hnrun : ¬ jobRunning st ⟨m.clientID, m.ytCode⟩ := by
        rw [jobRunning, jobInDict_iff]
        exact h1
      have hnfin : ¬ jobFinished st ⟨m.clientID, m.ytCode⟩ := by
        rw [jobFinished, jobInDict_iff]
        exact h2
      have hqmem : ∀ j : Job,
          QElem.jobElem j ∈ pySetAdd (QElem.jobElem ⟨m.clientID, m.ytCode⟩) st.queuedJobs
            ↔ (j = ⟨m.clientID, m.ytCode⟩ ∨ QElem.jobElem j ∈ st.queuedJobs) := by
        intro j
        rw [mem_pySetAdd]
        simp
      refine ⟨⟨nodup_pySetAdd _ _ hqnd, hrwf, hfwf, hdwf⟩, ?_, hfl, hnd, hc⟩
      intro j
      obtain ⟨d1, d2, d3⟩ := hdisj j
      simp only [dumpQueued, jobQueued, jobRunning, jobFinished] at d1 d2 d3 ⊢
      rw [hqmem j]
      refine ⟨?_, ?_, d3⟩
      · rintro ⟨(rfl | hq), hr⟩
        · exact hnrun hr
        · exact d1 ⟨hq, hr⟩
      · rintro ⟨(rfl | hq), hf⟩
        · exact hnfin hf
        · exact d2 ⟨hq, hf⟩

theorem invS_retry (st : ServerState) (fl : List Job)
    (h : InvS st fl) : InvS (processMsgRetry st).state fl := by
  obtain ⟨⟨hqnd, hrwf, hfwf, hdwf⟩, hdisj, hfl, hnd, hc⟩ := h
  unfold processMsgRetry
  refine ⟨⟨nodup_foldl_int _ _ hqnd, hrwf, hfwf, ?_⟩, ?_, hfl, hnd, hc⟩
  · exact ⟨List.nodup_nil, by intro p hp; simp [dumpFailed, dumpQueued] at hp⟩
  · intro j
    obtain ⟨d1, d2, d3⟩ := hdisj j
    simp only [dumpQueued, dumpFailed, jobQueued, jobRunning, jobFinished] at d1 d2 d3 ⊢
    rw [jobElem_mem_foldl_int]
    exact ⟨d1, d2, d3⟩

theorem invS_discard (st : ServerState) (fl : List Job)
    (h : InvS st fl) : InvS (processMsgDiscard st).state fl := by
  obtain ⟨⟨hqnd, hrwf, hfwf, hdwf⟩, hdisj, hfl, hnd, hc⟩ := h
  exact ⟨⟨hqnd, hrwf, hfwf, List.nodup_nil,
      by intro p hp; simp [processMsgDiscard, dumpFailed] at hp⟩,
    hdisj, hfl, hnd, hc⟩

theorem invS_allocate (st st1 : ServerState) (ws ws1 : List WorkerState)
    (fl : List Job)
    (hok : processMsgAllocate st ws = Except.ok (st1, ws1))
    (h : InvS st fl) :
    ∃ ds : List Job,
      List.Perm (workerJobs ws1) (workerJobs ws ++ ds) ∧
      InvS st1 (fl ++ ds) := by
  obtain ⟨⟨hqnd, hrwf, hfwf, hdwf⟩, hdisj, hfl, hnd, hc⟩ := h
  obtain ⟨ds, hq, hrun, hfin, hfail, hperm⟩ :=
    processMsgAllocate_spec ws st st1 ws1 hok
  have hqnd1 : (ds.map QElem.jobElem ++ st1.queuedJobs).Nodup := hq ▸ hqnd
  have hdsnd : ds.Nodup :=
    ((List.nodup_append.mp hqnd1).1).of_map
  have hdsq : ∀ j ∈ ds, QElem.jobElem j ∈ st.queuedJobs := by
    intro j hj
    rw [hq]
    exact List.mem_append_left _ (List.mem_map_of_mem _ hj)
  have hq1 : ∀ j : Job, QElem.jobElem j ∈ st1.queuedJobs →
      QElem.jobElem j ∈ st.queuedJobs := by
    intro j hj
    rw [hq]
    exact List.mem_append_right _ hj
  have hnotrun : ∀ j ∈ ds, ¬ jobInDict st.runningJobs j := by
    intro j hj hr
    exact (hdisj j).1 ⟨hdsq j hj, hr⟩
  obtain ⟨i1, i2, i3, i4⟩ :=
    dispatch_go ds st.runningJobs hrwf.1 hrwf.2 hdsnd hnotrun
  rw [← hrun] at i1 i2 i3 i4
  have hdisj1 : disjQRF st1 := by
    intro j
    obtain ⟨d1, d2, d3⟩ := hdisj j
    refine ⟨?_, ?_, ?_⟩
    · rintro ⟨hjq, hjr⟩
      rcases (i1 j).mp hjr with hr | hds
      · exact d1 ⟨hq1 j hjq, hr⟩
      · exact (List.nodup_append.mp hqnd1).2.2
          (List.mem_map_of_mem QElem.jobElem hds) hjq
    · rintro ⟨hjq, hjf⟩
      rw [jobFinished, hfin] at hjf
      exact d2 ⟨hq1 j hjq, hjf⟩
    · rintro ⟨hjr, hjf⟩
      rw [jobFinished, hfin] at hjf
      rcases (i1 j).mp hjr with hr | hds
      · exact d3 ⟨hr, hjf⟩
      · exact d2 ⟨hdsq j hds, hjf⟩
  refine ⟨ds, hperm,
    ⟨⟨(List.nodup_append.mp hqnd1).2.1, ⟨i2, i3⟩,
      by rw [hfin]; exact hfwf, by rw [hfail]; exact hdwf⟩,
     hdisj1, ?_, ?_, ?_⟩⟩
  · intro j hj
    rcases List.mem_append.mp hj with hjf | hjd
    · exact (i1 j).mpr (Or.inl (hfl j hjf))
    · exact (i1 j).mpr (Or.inr hjd)
  · rw [List.nodup_append]
    refine ⟨hnd, hdsnd, ?_⟩
    intro a haf had
    exact hnotrun a had (hfl a haf)
  · rw [totalRunning, i4, List.length_append, ← hc]
    rfl

theorem invS_ack (st : ServerState) (job : Job) (success : Bool)
    (r : HandlerResult) (fl : List Job)
    (hok : processMsgAck st job success = Except.ok r)
    (h : InvS st (job :: fl)) : InvS r.state fl := by
  obtain ⟨⟨hqnd, hrwf, hfwf, hdwf⟩, hdisj, hfl, hnd, hc⟩ := h
  have hjr : jobRunning st job := hfl job (List.mem_cons_self _ _)
  have hjnotfl : job ∉ fl := (List.nodup_cons.mp hnd).1
  have hflnd : fl.Nodup := (List.nodup_cons.mp hnd).2
  unfold processMsgAck at hok
  cases hg : dictGet st.runningJobs job.clientID with
  | none => rw [hg] at hok; exact absurd hok (by simp)
  | some s =>
      rw [hg] at hok
      dsimp only at hok
      have hs : s.Nodup := dictGet_value_nodup _ _ _ hrwf.2 hg
      by_cases hmem : job.ytCode ∈ s
      · unfold pySetRemove at hok
        rw [if_pos hmem] at hok
        dsimp only at hok
        injection hok with hok
        subst hok
        have i1 : ∀ j : Job,
            jobInDict (dictSet st.runningJobs job.clientID (s.erase job.ytCode)) j
              ↔ (jobInDict st.runningJobs j ∧ j ≠ job) := by
          intro j
          rw [jobInDict_dictSet_erase st.runningJobs job.clientID s job.ytCode hg hs j,
            job_eta]
        have hkeys1 := dictSet_erase_keys_nodup st.runningJobs job.clientID s
          job.ytCode hg hrwf.1
        have hvals1 := dictSet_erase_values_nodup st.runningJobs job.clientID s
          job.ytCode hrwf.2 hs
        have htot1 := dictTotal_dictSet_erase st.runningJobs job.clientID s
          job.ytCode hg hmem
        have hflight : ∀ j ∈ fl,
            jobInDict (dictSet st.runningJobs job.clientID (s.erase job.ytCode)) j := by
          intro j hj
          rw [i1]
          exact ⟨hfl j (List.mem_cons_of_mem _ hj),
            fun he => hjnotfl (he ▸ hj)⟩
        have htot : dictTotal (dictSet st.runningJobs job.clientID (s.erase job.ytCode))
            = fl.length := by
          rw [totalRunning] at hc
          simp only [List.length_cons] at hc
          omega
        cases success with
        | true =>
            have jf1 : ∀ j : Job,
                jobInDict (dictAddCode st.finishedJobs job.clientID job.ytCode) j
                  ↔ (jobInDict st.finishedJobs j ∨ j = job) := by
              intro j
              rw [jobInDict_dictAddCode, job_eta]
            refine ⟨⟨hqnd, ⟨hkeys1, hvals1⟩,
              ⟨dictAddCode_keys_nodup _ _ _ hfwf.1,
               dictAddCode_values_nodup _ _ _ hfwf.2⟩, hdwf⟩, ?_, hflight, hflnd, htot⟩
            intro j
            obtain ⟨d1, d2, d3⟩ := hdisj j
            refine ⟨?_, ?_, ?_⟩
            · rintro ⟨hjq, hjr1⟩
              rw [jobRunning] at hjr1
              exact d1 ⟨hjq, ((i1 j).mp hjr1).1⟩
            · rintro ⟨hjq, hjf1⟩
              rw [jobFinished] at hjf1
              rcases (jf1 j).mp hjf1 with hf | rfl
              · exact d2 ⟨hjq, hf⟩
              · exact (hdisj j).1 ⟨hjq, hjr⟩
            · rintro ⟨hjr1, hjf1⟩
              rw [jobRunning] at hjr1
              rw [jobFinished] at hjf1
              obtain ⟨hr, hne⟩ := (i1 j).mp hjr1
              rcases (jf1 j).mp hjf1 with hf | rfl
              · exact d3 ⟨hr, hf⟩
              · exact hne rfl
        | false =>
            refine ⟨⟨hqnd, ⟨hkeys1, hvals1⟩, hfwf,
              ⟨dictAddCode_keys_nodup _ _ _ hdwf.1,
               dictAddCode_values_nodup _ _ _ hdwf.2⟩⟩, ?_, hflight, hflnd, htot⟩
            intro j
            obtain ⟨d1, d2, d3⟩ := hdisj j
            refine ⟨?_, ?_, ?_⟩
            · rintro ⟨hjq, hjr1⟩
              rw [jobRunning] at hjr1
              exact d1 ⟨hjq, ((i1 j).mp hjr1).1⟩
            · rintro ⟨hjq, hjf1⟩
              exact d2 ⟨hjq, hjf1⟩
            · rintro ⟨hjr1, hjf1⟩
              rw [jobRunning] at hjr1
              exact d3 ⟨((i1 j).mp hjr1).1, hjf1⟩
      · unfold pySetRemove at hok
        rw [if_neg hmem] at hok
        exact absurd hok (by simp)

theorem ackJobs_addCode_selfMsgs (st : ServerState) (m : MsgAddCode) :
    ackJobs (processMsgAddCode st m).selfMsgs = [] := by
  unfold processMsgAddCode
  split
  · rfl
  · split
    · rfl
    · rfl

theorem workerJobs_replicate_init (n : Nat) :
    workerJobs (List.replicate n initWorker) = [] := by
  induction n with
  | zero => rfl
  | succ k ih =>
      rw [List.replicate_succ, workerJobs_cons, ih]
      rfl

theorem sysInv_init (n : Nat) : SysInv (initSys n) := by
  have hfl : inFlight (initSys n) = [] := by
    simp [inFlight, initSys, workerJobs_replicate_init, ackJobs]
  rw [SysInv, hfl]
  refine ⟨⟨List.nodup_nil,
    ⟨List.nodup_nil, by intro p hp; exact absurd hp (List.not_mem_nil p)⟩,
    ⟨List.nodup_nil, by intro p hp; exact absurd hp (List.not_mem_nil p)⟩,
    ⟨List.nodup_nil, by intro p hp; exact absurd hp (List.not_mem_nil p)⟩⟩,
    ?_, ?_, List.nodup_nil, rfl⟩
  · intro j
    refine ⟨?_, ?_, ?_⟩
    · rintro ⟨_, hb⟩
      exact hb
    · rintro ⟨_, hb⟩
      exact hb
    · rintro ⟨ha, _⟩
      exact ha
  · intro j hj
    exact absurd hj (List.not_mem_nil j)

theorem sysInv_step (s s' : SysState) (h : Step s s') (hinv : SysInv s) :
    SysInv s' := by
  cases h with
  | recv m hm =>
      have hack : ackJobs (s.inbox ++ [m]) = ackJobs s.inbox := by
        rw [ackJobs_append]
        cases m with
        | addCode msg => simp [ackJobs]
        | retry => simp [ackJobs]
        | discard => simp [ackJobs]
        | allocate => exact False.elim hm
        | ack j ok => exact False.elim hm
      rw [SysInv] at hinv ⊢
      simp only [inFlight] at hinv ⊢
      rw [hack]
      exact hinv
  | server m rest st1 ws1 out hq hh =>
      rw [SysInv] at hinv ⊢
      rw [inFlight, hq] at hinv
      cases m with
      | addCode msg =>
          simp only [serverHandle, Option.some.injEq, Prod.mk.injEq] at hh
          obtain ⟨h1, h2, h3⟩ := hh
          subst h1
          subst h2
          subst h3
          simp only [inFlight, ackJobs_append, ackJobs_addCode_selfMsgs,
            List.append_nil]
          have : ackJobs (SrvMsg.addCode msg :: rest) = ackJobs rest := by
            simp [ackJobs]
          rw [this] at hinv
          exact invS_addCode s.server msg _ hinv
      | retry =>
          simp only [serverHandle, Option.some.injEq, Prod.mk.injEq] at hh
          obtain ⟨h1, h2, h3⟩ := hh
          subst h1
          subst h2
          subst h3
          simp only [inFlight, ackJobs_append]
          have hout : ackJobs (processMsgRetry s.server).selfMsgs = [] := rfl
          rw [hout, List.append_nil]
          have : ackJobs (SrvMsg.retry :: rest) = ackJobs rest := by
            simp [ackJobs]
          rw [this] at hinv
          exact invS_retry s.server _ hinv
      | discard =>
          simp only [serverHandle, Option.some.injEq, Prod.mk.injEq] at hh
          obtain ⟨h1, h2, h3⟩ := hh
          subst h1
          subst h2
          subst h3
          simp only [inFlight, ackJobs_append]
          have hout : ackJobs (processMsgDiscard s.server).selfMsgs = [] := rfl
          rw [hout, List.append_nil]
          have : ackJobs (SrvMsg.discard :: rest) = ackJobs rest := by
            simp [ackJobs]
          rw [this] at hinv
          exact invS_discard s.server _ hinv
      | allocate =>
          simp only [serverHandle] at hh
          cases hal : processMsgAllocate s.server s.workers with
          | error e => rw [hal] at hh; exact absurd hh (by simp)
          | ok pr =>
              rw [hal] at hh
              simp only [Option.some.injEq, Prod.mk.injEq] at hh
              obtain ⟨h1, h2, h3⟩ := hh
              subst h1
              subst h2
              subst h3
              have hackhd : ackJobs (SrvMsg.allocate :: rest) = ackJobs rest := by
                simp [ackJobs]
              rw [hackhd] at hinv
              obtain ⟨ds, hperm, hinv1⟩ :=
                invS_allocate s.server pr.1 s.workers pr.2
                  (workerJobs s.workers ++ ackJobs rest) (by rw [hal]) hinv
              refine invS_perm ?_ hinv1
              rw [List.perm_iff_count]
              intro a
              have hc := List.perm_iff_count.mp hperm a
              simp only [inFlight, List.append_nil, List.count_append] at hc ⊢
              omega
      | ack job success =>
          simp only [serverHandle] at hh
          cases hak : processMsgAck s.server job success with
          | error e => rw [hak] at hh; exact absurd hh (by simp)
          | ok r =>
              rw [hak] at hh
              simp only [Option.some.injEq, Prod.mk.injEq] at hh
              obtain ⟨h1, h2, h3⟩ := hh
              subst h1
              subst h2
              subst h3
              rw [ackJobs_cons_ack] at hinv
              have hinv1 : InvS s.server
                  (job :: (workerJobs s.workers ++ ackJobs rest)) := by
                refine invS_perm ?_ hinv
                rw [List.perm_iff_count]
                intro a
                simp only [List.count_append, List.count_cons]
                omega
              have hinv2 := invS_ack s.server job success r
                (workerJobs s.workers ++ ackJobs rest) hak hinv1
              have hout : ackJobs r.selfMsgs = [] := by
                unfold processMsgAck at hak
                cases hg : dictGet s.server.runningJobs job.clientID with
                | none => rw [hg] at hak; exact absurd hak (by simp)
                | some sv =>
                    rw [hg] at hak
                    dsimp only at hak
                    by_cases hmem : job.ytCode ∈ sv
                    · unfold pySetRemove at hak
                      rw [if_pos hmem] at hak
                      dsimp only at hak
                      injection hak with hak
                      subst hak
                      rfl
                    · unfold pySetRemove at hak
                      rw [if_neg hmem] at hak
                      exact absurd hak (by simp)
              simp only [inFlight, ackJobs_append, hout, List.append_nil]
              exact hinv2
  | workerStart i w job rest hw hi hidle =>
      rw [SysInv] at hinv ⊢
      refine invS_perm ?_ hinv
      rw [List.perm_iff_count]
      intro a
      have hcw := count_workerJobs_set s.workers i w
        { w with free := false, inbox := rest, current := some job } hw a
      simp only [inFlight, List.count_append, workerLoad, hi,
        Option.toList_some, Option.toList_none, hidle, List.count_cons,
        List.count_nil, List.count_append] at hcw ⊢
      omega
  | workerFinish i w job success hw hc =>
      rw [SysInv] at hinv ⊢
      refine invS_perm ?_ hinv
      rw [List.perm_iff_count]
      intro a
      have hcw := count_workerJobs_set s.workers i w
        { w with free := true, current := none } hw a
      simp only [inFlight, List.count_append, workerLoad, hc,
        Option.toList_some, Option.toList_none, ackJobs_append,
        ackJobs_cons_ack, ackJobs_nil, List.count_cons, List.count_nil] at hcw ⊢
      omega

/-- Every reachable system state satisfies the inductive invariant. -/
theorem sysInv_reachable (n : Nat) (s : SysState) (h : Reachable n s) :
    SysInv s := by
  induction h with
  | refl => exact sysInv_init n
  | tail hr hstep ih => exact sysInv_step _ _ hstep ih

/-! ## Bridging the runner functions to the step relation -/

theorem step_recv (s : SysState) (m : SrvMsg) (hm : clientMsg m) :
    Step s (recvMsg m s) :=
  Step.recv s m hm

theorem step_server (s : SysState) (m : SrvMsg) (rest : List SrvMsg)
    (st1 : ServerState) (ws1 : List WorkerState) (out : List SrvMsg)
    (hq : s.inbox = m :: rest)
    (hh : serverHandle s.server s.workers m = some (st1, ws1, out)) :
    Step s (runServer s) := by
  have hrun : runServer s = { server := st1, workers := ws1, inbox := rest ++ out } := by
    unfold runServer
    rw [hq]
    dsimp only
    rw [hh]
  rw [hrun]
  exact Step.server s m rest st1 ws1 out hq hh

theorem step_workerStart (s : SysState) (i : Nat) (w : WorkerState)
    (job : Job) (rest : List Job)
    (hw : s.workers.get? i = some w) (hi : w.inbox = job :: rest)
    (hidle : w.current = none) :
    Step s (runWorkerStart i s) := by
  have hrun : runWorkerStart i s = { s with
      workers := s.workers.set i
        { w with free := false, inbox := rest, current := some job } } := by
    unfold runWorkerStart
    rw [hw]
    dsimp only
    rw [hidle]
    dsimp only
    rw [hi]
  rw [hrun]
  exact Step.workerStart s i w job rest hw hi hidle

theorem step_workerFinish (s : SysState) (i : Nat) (w : WorkerState)
    (job : Job) (success : Bool)
    (hw : s.workers.get? i = some w) (hc : w.current = some job) :
    Step s (runWorkerFinish i success s) := by
  have hrun : runWorkerFinish i success s = { s with
      workers := s.workers.set i { w with free := true, current := none }
      inbox := s.inbox ++ [SrvMsg.ack job success] } := by
    unfold runWorkerFinish
    rw [hw]
    dsimp only
    rw [hc]
  rw [hrun]
  exact Step.workerFinish s i w job success hw hc

/-! ## Claims C3 and C4 -/

/-- C3 (counterexample).  The four-set disjointness fails on a
reachable run: with one worker, add code "a" for a client, allocate,
let the worker fail it (so "a" lands in `Failed`), then add "a" again
- `processMsgAddCode` checks only `Running` and `Finished`, so the job
ends up in `Queued` while still in `Failed`: two sets at once. -/
theorem claim_C3_counterexample :
    ¬ (∀ s : SysState, Reachable 1 s → ∀ j : Job,
        ¬ (jobQueued s.server j ∧ jobFailed s.server j)) := by
  intro hclaim
  have r0 : Reachable 1 (initSys 1) := Relation.ReflTransGen.refl
  have r1 := r0.tail (step_recv _ (SrvMsg.addCode ⟨0, 1, "a"⟩) trivial)
  have r2 := r1.tail (step_server _ (SrvMsg.addCode ⟨0, 1, "a"⟩) [] _ _ _ rfl rfl)
  have r3 := r2.tail (step_server _ SrvMsg.allocate [] _ _ _ rfl rfl)
  have r4 := r3.tail (step_workerStart _ 0 _ ⟨0, "a"⟩ [] rfl rfl rfl)
  have r5 := r4.tail (step_workerFinish _ 0 _ ⟨0, "a"⟩ false rfl rfl)
  have r6 := r5.tail (step_server _ (SrvMsg.ack ⟨0, "a"⟩ false) [] _ _ _ rfl rfl)
  have r7 := r6.tail (step_server _ SrvMsg.allocate [] _ _ _ rfl rfl)
  have r8 := r7.tail (step_recv _ (SrvMsg.addCode ⟨0, 2, "a"⟩) trivial)
  have r9 := r8.tail (step_server _ (SrvMsg.addCode ⟨0, 2, "a"⟩) [] _ _ _ rfl rfl)
  exact absurd ⟨by decide, by decide⟩ (hclaim _ r9 ⟨0, "a"⟩)

/-- C3 (amended).  At every reachable system state, every job is in at
most one of `Queued`, `Running` and `Finished` (pairwise disjoint,
job-wise).  The original claim's fourth set does not belong in the
list: a job in `Failed` may simultaneously re-enter `Queued` (and from
there `Running` or `Finished`), because `processMsgAddCode` never
consults the failed set. -/
theorem claim_C3_disjointness_amended (n : Nat) (s : SysState)
    (h : Reachable n s) (j : Job) :
    ¬ (jobQueued s.server j ∧ jobRunning s.server j) ∧
    ¬ (jobQueued s.server j ∧ jobFinished s.server j) ∧
    ¬ (jobRunning s.server j ∧ jobFinished s.server j) :=
  (sysInv_reachable n s h).2.1 j

/-- Witness for the amended C3 at a concrete reachable state (one code
queued). -/
theorem claim_C3_disjointness_amended_witness :
    ¬ (jobQueued (runServer (recvMsg (SrvMsg.addCode ⟨0, 1, "a"⟩) (initSys 1))).server ⟨0, "a"⟩
        ∧ jobRunning (runServer (recvMsg (SrvMsg.addCode ⟨0, 1, "a"⟩) (initSys 1))).server ⟨0, "a"⟩) ∧
    ¬ (jobQueued (runServer (recvMsg (SrvMsg.addCode ⟨0, 1, "a"⟩) (initSys 1))).server ⟨0, "a"⟩
        ∧ jobFinished (runServer (recvMsg (SrvMsg.addCode ⟨0, 1, "a"⟩) (initSys 1))).server ⟨0, "a"⟩) ∧
    ¬ (jobRunning (runServer (recvMsg (SrvMsg.addCode ⟨0, 1, "a"⟩) (initSys 1))).server ⟨0, "a"⟩
        ∧ jobFinished (runServer (recvMsg (SrvMsg.addCode ⟨0, 1, "a"⟩) (initSys 1))).server ⟨0, "a"⟩) :=
  claim_C3_disjointness_amended 1 _
    (((Relation.ReflTransGen.refl : Reachable 1 (initSys 1)).tail
        (step_recv _ (SrvMsg.addCode ⟨0, 1, "a"⟩) trivial)).tail
      (step_server _ (SrvMsg.addCode ⟨0, 1, "a"⟩) [] _ _ _ rfl rfl))
    ⟨0, "a"⟩

/-- C4 (counterexample).  `|Running| ≤ numThreads` fails: with one
worker, two `AddCode`/`Allocate` rounds processed before the worker
thread dequeues its first task leave `free() = True` throughout
(`_free` only changes once `processMsgTask` starts), so the second
`Allocate` dispatches to the same worker again and `|Running| = 2 >
1 = numThreads`. -/
theorem claim_C4_counterexample :
    ¬ (∀ s : SysState, Reachable 1 s → totalRunning s.server ≤ 1) := by
  intro hclaim
  have r0 : Reachable 1 (initSys 1) := Relation.ReflTransGen.refl
  have r1 := r0.tail (step_recv _ (SrvMsg.addCode ⟨0, 1, "a"⟩) trivial)
  have r2 := r1.tail (step_server _ (SrvMsg.addCode ⟨0, 1, "a"⟩) [] _ _ _ rfl rfl)
  have r3 := r2.tail (step_server _ SrvMsg.allocate [] _ _ _ rfl rfl)
  have r4 := r3.tail (step_recv _ (SrvMsg.addCode ⟨0, 2, "b"⟩) trivial)
  have r5 := r4.tail (step_server _ (SrvMsg.addCode ⟨0, 2, "b"⟩) [] _ _ _ rfl rfl)
  have r6 := r5.tail (step_server _ SrvMsg.allocate [] _ _ _ rfl rfl)
  exact absurd (hclaim _ r6) (by decide)

/-- C4 (amended).  What does hold at every reachable state, for every
interleaving: the number of running jobs equals the number of
dispatched-but-unacknowledged tasks (tasks queued at workers,
downloads in progress, and `MsgAck` messages still in the server's
inbox).  It is not bounded by the number of workers, because a worker
reports `free() = True` until it *starts* a task, so consecutive
`Allocate` passes can assign several tasks to one worker. -/
theorem claim_C4_running_eq_inflight (n : Nat) (s : SysState)
    (h : Reachable n s) :
    totalRunning s.server = (inFlight s).length :=
  (sysInv_reachable n s h).2.2.2.2

/-- Witness for the amended C4 at a concrete reachable state (one task
dispatched, still unacknowledged). -/
theorem claim_C4_running_eq_inflight_witness :
    totalRunning (runServer (runServer (recvMsg
        (SrvMsg.addCode ⟨0, 1, "a"⟩) (initSys 1)))).server
      = (inFlight (runServer (runServer (recvMsg
          (SrvMsg.addCode ⟨0, 1, "a"⟩) (initSys 1))))).length :=
  claim_C4_running_eq_inflight 1 _
    ((((Relation.ReflTransGen.refl : Reachable 1 (initSys 1)).tail
          (step_recv _ (SrvMsg.addCode ⟨0, 1, "a"⟩) trivial)).tail
        (step_server _ (SrvMsg.addCode ⟨0, 1, "a"⟩) [] _ _ _ rfl rfl)).tail
      (step_server _ SrvMsg.allocate [] _ _ _ rfl rfl))

/-! ## Byte-level sentinel lemmas -/

theorem flatFrames_cons (b : List Nat) (bs : List (List Nat)) :
    flatFrames (b :: bs) = frameOf b ++ flatFrames bs := by
  simp [flatFrames]

theorem frameOf_assoc (b S : List Nat) :
    frameOf b ++ S = START ++ ((b ++ SEND) ++ S) := by
  simp [frameOf]

theorem frameOf_length (b : List Nat) :
    (frameOf b).length = 12 + b.length := by
  simp [frameOf, START, SEND]
  omega

theorem drop_append_ge (x y : List Nat) (n : Nat) (h : x.length ≤ n) :
    (x ++ y).drop n = y.drop (n - x.length) := by
  obtain ⟨k, rfl⟩ : ∃ k, n = x.length + k := ⟨n - x.length, by omega⟩
  rw [List.drop_append, Nat.add_sub_cancel_left]

theorem no_SEND_in_START (m : Nat) (hm : m < 6) (R : List Nat) :
    SEND.isPrefixOf (START.drop m ++ R) = false := by
  interval_cases m <;> simp [START, SEND, List.isPrefixOf]

theorem no_early_SEND (b S : List Nat) (hgood : goodBody b) (n : Nat)
    (hn : n < 6 + b.length) :
    SEND.isPrefixOf ((frameOf b ++ S).drop n) = false := by
  rcases Nat.lt_or_ge n 6 with h6 | h6
  · rw [frameOf_assoc,
      List.drop_append_of_le_length (by simp [START]; omega)]
    exact no_SEND_in_START n h6 _
  · rw [frameOf_assoc, drop_append_ge _ _ n (by simp [START]; omega)]
    have hm : n - START.length < b.length := by
      simp [START]
      omega
    by_contra hx
    have hx := eq_true_of_ne_false hx
    rw [List.drop_append_of_le_length (by simp [SEND]; omega)] at hx
    have hx2 := isPrefixOf_append_left SEND _ S hx
      (by simp [SEND, List.length_drop]; omega)
    have hmin := ((listFind_eq_some_iff SEND (b ++ SEND) b.length).mp hgood).2
    have := hmin (n - START.length) hm
    rw [this] at hx2
    exact Bool.false_ne_true hx2

/-! ## The two shapes of an `addAndDecode` call -/

/-- A call whose combined buffer is a *proper prefix* of the next
frame (plus whatever follows): no frame completes, nothing is
emitted, and the buffer is kept as-is. -/
theorem addAndDecode_partial (bufs : SerBuffers) (p : List Nat) (id : Nat)
    (b S : List Nat) (t : Nat)
    (hgood : goodBody b)
    (hbuf : bufs id ++ p = (frameOf b ++ S).take t)
    (ht : t < (frameOf b).length) :
    addAndDecode bufs p id
      = (fun i => if i = id then (frameOf b ++ S).take t else bufs i, none) := by
  simp only [addAndDecode]
  rw [hbuf]
  rcases Nat.lt_or_ge t 6 with h6 | h6
  · have hnone : listFind START ((frameOf b ++ S).take t) = none := by
      rw [listFind_eq_none_iff]
      intro n
      by_contra hx
      have hx := eq_true_of_ne_false hx
      have hlen := isPrefixOf_length_le _ _ hx
      simp [List.length_drop, List.length_take, START] at hlen
      omega
    rw [hnone]
  · have hpre : START.isPrefixOf ((frameOf b ++ S).take t) = true := by
      rw [frameOf_assoc]
      exact isPrefixOf_append_of_ge START _ t (by simp [START]; omega)
    rw [listFind_of_isPrefixOf _ _ hpre]
    dsimp only
    have hsend : listFind SEND (((frameOf b ++ S).take t).drop 0) = none := by
      rw [List.drop_zero, listFind_eq_none_iff]
      intro n
      by_contra hx
      have hx := eq_true_of_ne_false hx
      have hlen := isPrefixOf_length_le _ _ hx
      rw [List.drop_take] at hx
      have hx2 := isPrefixOf_of_take _ _ _ hx
      have hbound : n < 6 + b.length := by
        simp [List.length_drop, List.length_take, SEND] at hlen
        have hfl := frameOf_length b
        omega
      rw [no_early_SEND b S hgood n hbound] at hx2
      exact Bool.false_ne_true hx2
    rw [hsend]
    simp

/-- A call whose combined buffer is exactly one whole frame followed
by a remainder: the frame's body is emitted and the remainder stays
buffered. -/
theorem addAndDecode_complete (bufs : SerBuffers) (p : List Nat) (id : Nat)
    (b S : List Nat)
    (hgood : goodBody b)
    (hbuf : bufs id ++ p = frameOf b ++ S) :
    addAndDecode bufs p id
      = (fun i => if i = id then S else bufs i, some (unpickleMsg b)) := by
  simp only [addAndDecode]
  rw [hbuf]
  have hpre : START.isPrefixOf (frameOf b ++ S) = true := by
    rw [frameOf_assoc, List.isPrefixOf_iff_prefix]
    exact List.prefix_append _ _
  rw [listFind_of_isPrefixOf _ _ hpre]
  dsimp only
  have hlen1 : (START ++ b).length = 6 + b.length := by
    simp [START]
    omega
  have hfind2 : listFind SEND ((frameOf b ++ S).drop 0) = some (6 + b.length) := by
    rw [List.drop_zero]
    apply (listFind_eq_some_iff SEND (frameOf b ++ S) (6 + b.length)).mpr
    constructor
    · have harr : frameOf b ++ S = (START ++ b) ++ (SEND ++ S) := by
        simp [frameOf]
      rw [harr, List.drop_left' hlen1, List.isPrefixOf_iff_prefix]
      exact List.prefix_append _ _
    · intro m hm
      exact no_early_SEND b S hgood m hm
  rw [hfind2]
  dsimp only
  have hbody : (((frameOf b ++ S).drop 0).take (6 + b.length)).drop START.length = b := by
    rw [List.drop_zero]
    have harr : frameOf b ++ S = (START ++ b) ++ (SEND ++ S) := by
      simp [frameOf]
    rw [harr, List.take_left' hlen1]
    exact List.drop_left' rfl
  have hrest : ((frameOf b ++ S).drop 0).drop (6 + b.length + SEND.length) = S := by
    rw [List.drop_zero]
    apply List.drop_left'
    rw [frameOf_length]
    simp [SEND]
    omega
  rw [hbody, hrest]

theorem buf_take_extend (x : List Nat) (t : Nat) (p rest : List Nat)
    (h : x.take t ++ (p ++ rest) = x) :
    x.take t ++ p = x.take (t + p.length) := by
  have hdrop : p ++ rest = x.drop t :=
    List.append_cancel_left (h.trans (List.take_append_drop t x).symm)
  rw [List.take_add]
  congr 1
  have : (x.drop t).take p.length = p := by
    rw [← hdrop]
    exact List.take_left p rest
  rw [this]

theorem chunksOK_nil_any (t t' : Nat) (ps : List (List Nat)) :
    chunksOK [] t ps = chunksOK [] t' ps := by
  cases ps <;> rfl

theorem feedPackets_cons (bufs : SerBuffers) (id : Nat) (p : List Nat)
    (ps : List (List Nat)) :
    (feedPackets bufs id (p :: ps)).2
      = ((addAndDecode bufs p id).2).toList
        ++ (feedPackets (addAndDecode bufs p id).1 id ps).2 := rfl

/-- The central induction: feeding a packetisation of a frame stream,
one `addAndDecode` call per packet, yields all the bodies in order -
provided every packet completes at most one frame. -/
theorem feed_go (ps : List (List Nat)) :
    ∀ (rbs : List (List Nat)) (bufs : SerBuffers) (id : Nat) (t : Nat),
      (∀ b ∈ rbs, goodBody b) →
      bufs id = (flatFrames rbs).take t →
      boundOK rbs t →
      bufs id ++ ps.flatten = flatFrames rbs →
      chunksOK rbs t ps = true →
      (feedPackets bufs id ps).2 = rbs.map (fun b => unpickleMsg b) := by
  induction ps with
  | nil =>
      intro rbs bufs id t hgood htake hbound htotal hchunks
      cases rbs with
      | nil => rfl
      | cons b bs =>
          exfalso
          simp only [List.flatten_nil, List.append_nil] at htotal
          rw [htake] at htotal
          have hlen := congrArg List.length htotal
          rw [List.length_take] at hlen
          have hfl : (flatFrames (b :: bs)).length
              = (frameOf b).length + (flatFrames bs).length := by
            rw [flatFrames_cons, List.length_append]
          have hb : t < (frameOf b).length := hbound
          omega
  | cons p ps ih =>
      intro rbs bufs id t hgood htake hbound htotal hchunks
      cases rbs with
      | nil =>
          have hb0 : bufs id = [] := by
            rw [htake]
            simp [flatFrames]
          have hflat : p ++ ps.flatten = [] := by
            have h1 := htotal
            rw [hb0] at h1
            simpa [flatFrames] using h1
          have hp : p = [] := (List.append_eq_nil.mp hflat).1
          have hps : ps.flatten = [] := (List.append_eq_nil.mp hflat).2
          have hstep : addAndDecode bufs p id
              = (fun i => if i = id then ([] : List Nat) else bufs i, none) := by
            subst hp
            simp only [addAndDecode]
            rw [hb0]
            have hnone : listFind START (([] : List Nat) ++ []) = none := by decide
            rw [hnone]
            dsimp only
            simp
          rw [feedPackets_cons, hstep]
          simp only [Option.toList_none, List.nil_append]
          have hchnext : chunksOK [] 0 ps = true := by
            have h1 := hchunks
            unfold chunksOK at h1
            exact h1
          exact ih [] (fun i => if i = id then ([] : List Nat) else bufs i) id 0
            (by intro b hb; exact absurd hb (List.not_mem_nil b))
            (by simp [flatFrames])
            rfl
            (by simp [flatFrames, hps])
            hchnext
      | cons b bs =>
          have hgb : goodBody b := hgood b (List.mem_cons_self _ _)
          have hstream : flatFrames (b :: bs) = frameOf b ++ flatFrames bs :=
            flatFrames_cons b bs
          have hx : bufs id ++ p = (flatFrames (b :: bs)).take (t + p.length) := by
            rw [htake]
            apply buf_take_extend _ _ _ ps.flatten
            have h1 := htotal
            rw [htake] at h1
            rw [show (p :: ps).flatten = p ++ ps.flatten from by simp] at h1
            exact h1
          by_cases hle : (frameOf b).length ≤ t + p.length
          · -- this packet completes the current frame
            have hsplit : (flatFrames (b :: bs)).take (t + p.length)
                = frameOf b ++ (flatFrames bs).take (t + p.length - (frameOf b).length) := by
              rw [hstream, List.take_append_eq_append_take,
                List.take_of_length_le hle]
            have hstep := addAndDecode_complete bufs p id b
              ((flatFrames bs).take (t + p.length - (frameOf b).length)) hgb
              (by rw [hx, hsplit])
            have htotal2 : (flatFrames bs).take (t + p.length - (frameOf b).length)
                ++ ps.flatten = flatFrames bs := by
              have h1 := htotal
              rw [show (p :: ps).flatten = p ++ ps.flatten from by simp,
                ← List.append_assoc, hx, hsplit, hstream, List.append_assoc] at h1
              exact List.append_cancel_left h1
            rw [feedPackets_cons, hstep]
            simp only [Option.toList_some, List.map_cons]
            rw [List.cons_append, List.nil_append]
            congr 1
            cases bs with
            | nil =>
                have hch2 : chunksOK [] (t + p.length - (frameOf b).length) ps = true := by
                  have h1 := hchunks
                  unfold chunksOK at h1
                  rw [if_pos hle] at h1
                  dsimp only at h1
                  simpa using h1
                have hSnil : (flatFrames ([] : List (List Nat))).take
                    (t + p.length - (frameOf b).length) = [] := by
                  simp [flatFrames]
                exact ih []
                  (fun i => if i = id then
                    (flatFrames ([] : List (List Nat))).take
                      (t + p.length - (frameOf b).length) else bufs i) id 0
                  (by intro b2 hb2; exact absurd hb2 (List.not_mem_nil b2))
                  (by simp [flatFrames])
                  rfl
                  (by
                    simp only [eq_self_iff_true, if_true, hSnil, List.nil_append]
                    have h2 := htotal2
                    rw [hSnil, List.nil_append] at h2
                    simpa [flatFrames] using h2)
                  (by
                    rw [chunksOK_nil_any 0 (t + p.length - (frameOf b).length)]
                    exact hch2)
            | cons b2 bs2 =>
                have hch2 : (decide (t + p.length - (frameOf b).length < (frameOf b2).length)
                    && chunksOK (b2 :: bs2) (t + p.length - (frameOf b).length) ps) = true := by
                  have h1 := hchunks
                  unfold chunksOK at h1
                  rw [if_pos hle] at h1
                  dsimp only at h1
                  exact h1
                rw [Bool.and_eq_true] at hch2
                have hbound2 : t + p.length - (frameOf b).length
                    < (frameOf b2).length := by
                  have := hch2.1
                  simpa using this
                exact ih (b2 :: bs2)
                  (fun i => if i = id then
                    (flatFrames (b2 :: bs2)).take
                      (t + p.length - (frameOf b).length) else bufs i) id
                  (t + p.length - (frameOf b).length)
                  (fun b3 hb3 => hgood b3 (List.mem_cons_of_mem b hb3))
                  (by simp)
                  hbound2
                  (by
                    simp only [eq_self_iff_true, if_true]
                    exact htotal2)
                  hch2.2
          · -- the frame remains incomplete
            have hlt : t + p.length < (frameOf b).length := by omega
            have hstep := addAndDecode_partial bufs p id b (flatFrames bs)
              (t + p.length) hgb (by rw [hx, hstream]) hlt
            have hch : chunksOK (b :: bs) (t + p.length) ps = true := by
              have h1 := hchunks
              unfold chunksOK at h1
              rwa [if_neg hle] at h1
            rw [feedPackets_cons, hstep]
            simp only [Option.toList_none, List.nil_append]
            exact ih (b :: bs)
              (fun i => if i = id then
                (frameOf b ++ flatFrames bs).take (t + p.length) else bufs i) id
              (t + p.length)
              hgood
              (by simp only [eq_self_iff_true, if_true, hstream])
              hlt
              (by
                simp only [eq_self_iff_true, if_true]
                rw [← hstream, ← hx, List.append_assoc]
                have h1 := htotal
                rw [show (p :: ps).flatten = p ++ ps.flatten from by simp] at h1
                exact h1)
              hch

/-! ## Frame decoding, claim C8: counterexample -/

/-- C8 (counterexample).  Two frames concatenated and delivered as a
*single* packet are a legal split of the stream, yet one
`addAndDecode` call per arriving packet yields only the first message
- `addAndDecode` returns at most one message per call and the second
frame stays in the buffer - so the decoder does not yield the two
original messages. -/
theorem claim_C8_counterexample :
    (feedPackets initBuffers 0 [encode WireMsg.retryMsg ++ encode WireMsg.discardMsg]).2
      = [Except.ok WireMsg.retryMsg] ∧
    (feedPackets initBuffers 0 [encode WireMsg.retryMsg ++ encode WireMsg.discardMsg]).2
      ≠ [Except.ok WireMsg.retryMsg, Except.ok WireMsg.discardMsg] := by
  constructor
  · decide
  · decide

/-- Claim C8 (amended): if a stream of encoded messages is split into
packets so that each arriving packet completes at most one frame (each
`addAndDecode` call returns at most one message, so a packet carrying
two complete frames loses the second - see the counterexample), and the
pickled bodies contain no spurious end sentinel, then feeding the
packets one `addAndDecode` call each yields exactly the original
messages, in order. -/
theorem claim_C8_framing_amended (msgs : List WireMsg) (packets : List (List Nat))
    (id : Nat)
    (hgood : ∀ m ∈ msgs, goodBody (pickleMsg m))
    (hsplit : packets.flatten = (msgs.map encode).flatten)
    (hchunks : chunksOK (msgs.map pickleMsg) 0 packets = true) :
    (feedPackets initBuffers id packets).2 = msgs.map Except.ok := by
  have hff : flatFrames (msgs.map pickleMsg) = (msgs.map encode).flatten := by
    unfold flatFrames
    rw [List.map_map]
    rfl
  have hmain := feed_go packets (msgs.map pickleMsg) initBuffers id 0
    (by
      intro b hb
      rcases List.mem_map.mp hb with ⟨m, hm, rfl⟩
      exact hgood m hm)
    (by simp [initBuffers])
    (by
      cases msgs with
      | nil => rfl
      | cons m ms =>
          show 0 < (frameOf (pickleMsg m)).length
          rw [frameOf_length]
          omega)
    (by
      show initBuffers id ++ packets.flatten = flatFrames (msgs.map pickleMsg)
      rw [hff]
      simpa [initBuffers] using hsplit)
    hchunks
  rw [hmain, List.map_map]
  exact List.map_congr_left (fun m _ => unpickle_pickle m)

theorem claim_C8_framing_amended_witness :
    (feedPackets initBuffers 0
        [encode WireMsg.retryMsg, encode WireMsg.discardMsg]).2
      = [WireMsg.retryMsg, WireMsg.discardMsg].map Except.ok :=
  claim_C8_framing_amended [WireMsg.retryMsg, WireMsg.discardMsg]
    [encode WireMsg.retryMsg, encode WireMsg.discardMsg] 0
    (by decide) (by decide) (by decide)

end Czytget
